import Mathlib

/-!
Verification of the rustphoto image-processing core.

This file shallowly embeds the Rust sources (`src/rustphoto/image.rs`,
`src/rustphoto/transforms.rs`, `src/rustphoto/compression.rs`,
`src/rustphoto/error.rs`) in Lean and proves properties of the embedding.

Modelling conventions:
- Rust `i32` values (coordinates, dimensions) are modelled as `Int` with exact
  arithmetic; `u8`/`u16`/`usize` values as `Nat`.
- Rust `f32`/`f64` arithmetic is modelled by exact rational arithmetic (`ℚ`);
  `as i32` / `as u8` conversions on floats are truncation toward zero, which is
  what the Rust casts perform for in-range values.
- Rust `x[i as usize]` indexing where `i : i32` panics when `i` is negative
  (the cast wraps to a huge `usize`) or when `i` is at or beyond the length.
  A panic is modelled as `none`; `Vec::with_capacity(n as usize)` with a
  negative `i32` product `n` likewise aborts and is modelled as `none`.
- Fallible Rust functions returning `Result` are modelled as `Except` values
  inside the `Option` panic layer.
-/

namespace RustPhoto

/-- RGB pixel with three 8-bit channels, from `image.rs` (`struct Pixel`).
Channels are modelled as `Nat`; validity (each channel below 256) is tracked
by `Pixel.Valid` where a claim needs it. -/
structure Pixel where
  r : Nat
  g : Nat
  b : Nat
deriving Repr, DecidableEq

/-- Constructor `Pixel::new`. -/
def Pixel.new (r g b : Nat) : Pixel := ⟨r, g, b⟩

/-- Channel bounds that the Rust `u8` type enforces. -/
def Pixel.Valid (p : Pixel) : Prop := p.r < 256 ∧ p.g < 256 ∧ p.b < 256

instance (p : Pixel) : Decidable p.Valid := by
  unfold Pixel.Valid; infer_instance

/-- Rust `f32::clamp(lo, hi)` for `lo ≤ hi`, on the rational model. -/
def qclamp (x lo hi : ℚ) : ℚ := max lo (min x hi)

/-- Truncation toward zero of a rational, modelling Rust `as i32` / `as u8`
casts from floats (for in-range values). The denominator of a `ℚ` is positive,
so truncating the fraction is `Int.tdiv` of numerator by denominator. -/
def ratTrunc (q : ℚ) : Int := q.num.tdiv q.den

/-- Constructor `Pixel::from_f32`: clamp each rational channel to `[0, 255]`,
then truncate (`as u8`). -/
def Pixel.from_f32 (r g b : ℚ) : Pixel :=
  ⟨(ratTrunc (qclamp r 0 255)).toNat,
   (ratTrunc (qclamp g 0 255)).toNat,
   (ratTrunc (qclamp b 0 255)).toNat⟩

/-- Image buffer from `image.rs` (`struct Image`): `i32` dimensions and a
row-major flat pixel vector. -/
structure Image where
  width : Int
  height : Int
  pixels : List Pixel
deriving Repr, DecidableEq

/-- The buffer invariant of the spec: non-negative dimensions and
`pixels.length = width * height` (row-major storage). -/
def Image.Valid (img : Image) : Prop :=
  0 ≤ img.width ∧ 0 ≤ img.height ∧
    (img.pixels.length : Int) = img.width * img.height

instance (img : Image) : Decidable img.Valid := by
  unfold Image.Valid; infer_instance

/-- The iteration sequence of a Rust `for v in 0..n` loop with `v : i32`:
`0, 1, …, n-1`, empty when `n ≤ 0`. -/
def intRange (n : Int) : List Int :=
  (List.range n.toNat).map (fun (i : Nat) => (i : Int))

/-- Read `pixels[idx as usize]` with `idx : i32`; `none` models the
index-out-of-bounds panic (a negative index wraps to a huge `usize`). -/
def readPx (pixels : List Pixel) (idx : Int) : Option Pixel :=
  if 0 ≤ idx ∧ idx.toNat < pixels.length then pixels[idx.toNat]? else none

/-- Write `pixels[idx as usize] = p` with `idx : i32`; `none` models the
index-out-of-bounds panic. -/
def writePx (pixels : List Pixel) (idx : Int) (p : Pixel) : Option (List Pixel) :=
  if 0 ≤ idx ∧ idx.toNat < pixels.length then some (pixels.set idx.toNat p) else none

/-- Evaluation of a Rust loop that pushes `f a` for each iteration value `a`
in order, aborting the whole computation if any body panics (`none`). -/
def collectLoop {α β : Type} (l : List α) (f : α → Option β) : Option (List β) :=
  match l with
  | [] => some []
  | a :: t =>
    match f a with
    | none => none
    | some b =>
      match collectLoop t f with
      | none => none
      | some rest => some (b :: rest)

/-- Error type of `transforms.rs` (`enum TransformError`). -/
inductive TransformError where
  | outOfBounds
deriving Repr, DecidableEq

/-- Parameters of the `Crop` transform. -/
structure Crop where
  x : Int
  y : Int
  width : Int
  height : Int

/-- Shallow embedding of `Crop::apply` (`transforms.rs`). The bounds check is
exactly the source's `x + w > width || y + h > height`; the nested push loops
over `dy`, `dx` become a nested `mapM` producing the rows in order, flattened
row-major. `Vec::with_capacity((w*h) as usize)` aborts when `w*h` is negative
(the cast produces a huge capacity), modelled by the `w*h < 0` guard. -/
def Crop.apply (c : Crop) (img : Image) : Option (Except TransformError Image) :=
  if c.x + c.width > img.width ∨ c.y + c.height > img.height then
    some (Except.error TransformError.outOfBounds)
  else if c.width * c.height < 0 then
    none
  else
    match collectLoop (intRange c.height) (fun dy =>
        collectLoop (intRange c.width) (fun dx =>
          readPx img.pixels ((c.y + dy) * img.width + (c.x + dx)))) with
    | none => none
    | some rows => some (Except.ok ⟨c.width, c.height, rows.flatten⟩)

/-- Evaluation of a Rust fold-style loop that threads an accumulator through
the iterations in order, aborting on a panic (`none`) in the body. -/
def foldLoop {σ α : Type} (l : List α) (f : σ → α → Option σ) (init : σ) : Option σ :=
  match l with
  | [] => some init
  | a :: t =>
    match f init a with
    | none => none
    | some acc => foldLoop t f acc

/-- Evaluation of a Rust double loop `for y in 0..h { for x in 0..w { … } }`
whose body computes a pixel (`val x y`, possibly panicking) and stores it at
destination index `dst x y` of the accumulator vector. -/
def setLoop (h w : Int) (val : Int → Int → Option Pixel) (dst : Int → Int → Int)
    (init : List Pixel) : Option (List Pixel) :=
  foldLoop (intRange h) (fun acc y =>
    foldLoop (intRange w) (fun acc2 x =>
      match val x y with
      | none => none
      | some p => writePx acc2 (dst x y) p) acc) init

/-- Axis parameter of `Flip` (`enum FlipAxis`). -/
inductive FlipAxis where
  | horizontal
  | vertical
deriving Repr, DecidableEq

/-- Parameters of the `Flip` transform. -/
structure Flip where
  axis : FlipAxis

/-- Shallow embedding of `Flip::apply` (`transforms.rs`): a freshly allocated
`width*height` vector is filled by remapping every source pixel; horizontal
sends `(x, y)` to `(width-1-x, y)`, vertical sends `(x, y)` to
`(x, height-1-y)`. -/
def Flip.apply (t : Flip) (img : Image) : Option (Except TransformError Image) :=
  if img.width * img.height < 0 then none
  else
    let init := List.replicate (img.width * img.height).toNat (Pixel.new 0 0 0)
    let loop := match t.axis with
      | FlipAxis.horizontal =>
          setLoop img.height img.width
            (fun x y => readPx img.pixels (y * img.width + x))
            (fun x y => y * img.width + (img.width - 1 - x)) init
      | FlipAxis.vertical =>
          setLoop img.height img.width
            (fun x y => readPx img.pixels (y * img.width + x))
            (fun x y => (img.height - 1 - y) * img.width + x) init
    match loop with
    | none => none
    | some pixels => some (Except.ok ⟨img.width, img.height, pixels⟩)

/-- Angle parameter of `Rotate` (`enum RotateAngle`). -/
inductive RotateAngle where
  | deg90
  | deg180
  | deg270
deriving Repr, DecidableEq

/-- Parameters of the `Rotate` transform. -/
structure Rotate where
  angle : RotateAngle

/-- Shallow embedding of `Rotate::apply` (`transforms.rs`): 90°/270° swap the
dimensions, 180° keeps them; the destination flat indices are exactly the
source's `dst_y * new_width + dst_x` computations (for 90° and 270° the new
width is `image.height`). -/
def Rotate.apply (t : Rotate) (img : Image) : Option (Except TransformError Image) :=
  let dims : Int × Int :=
    match t.angle with
    | RotateAngle.deg90 => (img.height, img.width)
    | RotateAngle.deg270 => (img.height, img.width)
    | RotateAngle.deg180 => (img.width, img.height)
  if dims.1 * dims.2 < 0 then none
  else
    let init := List.replicate (dims.1 * dims.2).toNat (Pixel.new 0 0 0)
    let loop := match t.angle with
      | RotateAngle.deg90 =>
          setLoop img.height img.width
            (fun x y => readPx img.pixels (y * img.width + x))
            (fun x y => x * img.height + (img.height - 1 - y)) init
      | RotateAngle.deg180 =>
          setLoop img.height img.width
            (fun x y => readPx img.pixels (y * img.width + x))
            (fun x y => (img.height - 1 - y) * img.width + (img.width - 1 - x)) init
      | RotateAngle.deg270 =>
          setLoop img.height img.width
            (fun x y => readPx img.pixels (y * img.width + x))
            (fun x y => (img.width - 1 - x) * img.height + y) init
    match loop with
    | none => none
    | some pixels => some (Except.ok ⟨dims.1, dims.2, pixels⟩)

/-- Parameters of the `Fit` transform. -/
structure Fit where
  max_width : Int
  max_height : Int

/-- Shallow embedding of `Fit::apply` (`transforms.rs`) on the rational model
of `f32`: `scale = min(max_w/w, max_h/h, 1.0)`, truncated new dimensions,
nearest-neighbor sampling at `(dst * ratio) as i32`. (Rust `f32` division by
zero yields infinities/NaN; the rational model yields 0. The claims proved
about `Fit` do not depend on that corner.) -/
def Fit.apply (t : Fit) (img : Image) : Option (Except TransformError Image) :=
  let scale_x : ℚ := (t.max_width : ℚ) / (img.width : ℚ)
  let scale_y : ℚ := (t.max_height : ℚ) / (img.height : ℚ)
  let scale : ℚ := min (min scale_x scale_y) 1
  let new_width : Int := ratTrunc ((img.width : ℚ) * scale)
  let new_height : Int := ratTrunc ((img.height : ℚ) * scale)
  if new_width * new_height < 0 then none
  else
    let init := List.replicate (new_width * new_height).toNat (Pixel.new 0 0 0)
    let x_ratio : ℚ := (img.width : ℚ) / (new_width : ℚ)
    let y_ratio : ℚ := (img.height : ℚ) / (new_height : ℚ)
    match setLoop new_height new_width
        (fun dx dy => readPx img.pixels
          (ratTrunc ((dy : ℚ) * y_ratio) * img.width + ratTrunc ((dx : ℚ) * x_ratio)))
        (fun dx dy => dy * new_width + dx) init with
    | none => none
    | some pixels => some (Except.ok ⟨new_width, new_height, pixels⟩)

/-- Shallow embedding of `Invert::apply` (`transforms.rs`): each channel is
mapped to `255 - channel` (`u8` arithmetic; the channel is at most 255, so the
subtraction does not underflow). A pure map over the pixels: no indexing, so
no panic is possible. -/
def Invert.apply (img : Image) : Except TransformError Image :=
  Except.ok ⟨img.width, img.height,
    img.pixels.map (fun p => Pixel.new (255 - p.r) (255 - p.g) (255 - p.b))⟩

/-- Shallow embedding of `Grayscale::apply`: integer average of the three
channels (`u16` arithmetic, exact in `Nat`) written to all three channels. -/
def Grayscale.apply (img : Image) : Except TransformError Image :=
  Except.ok ⟨img.width, img.height,
    img.pixels.map (fun p =>
      let gray := (p.r + p.g + p.b) / 3
      Pixel.new gray gray gray)⟩

/-- Shallow embedding of `Brightness::apply`: each channel scaled by the
factor in float (rational model), then clamped-truncated back to `u8`. -/
def Brightness.apply (factor : ℚ) (img : Image) : Except TransformError Image :=
  Except.ok ⟨img.width, img.height,
    img.pixels.map (fun p =>
      Pixel.from_f32 ((p.r : ℚ) * factor) ((p.g : ℚ) * factor) ((p.b : ℚ) * factor))⟩

/-- Shallow embedding of `Contrast::apply`: `(channel - 128) * factor + 128`
in float (rational model), clamped-truncated back to `u8`. -/
def Contrast.apply (factor : ℚ) (img : Image) : Except TransformError Image :=
  Except.ok ⟨img.width, img.height,
    img.pixels.map (fun p =>
      Pixel.from_f32 (((p.r : ℚ) - 128) * factor + 128)
        (((p.g : ℚ) - 128) * factor + 128) (((p.b : ℚ) - 128) * factor + 128))⟩

/-- Shallow embedding of `Tint::apply`: per-channel blend
`src * (1 - intensity) + tint * intensity` (rational model of `f32`). -/
def Tint.apply (color : Pixel) (intensity : ℚ) (img : Image) :
    Except TransformError Image :=
  Except.ok ⟨img.width, img.height,
    img.pixels.map (fun p =>
      Pixel.from_f32
        ((p.r : ℚ) * (1 - intensity) + (color.r : ℚ) * intensity)
        ((p.g : ℚ) * (1 - intensity) + (color.g : ℚ) * intensity)
        ((p.b : ℚ) * (1 - intensity) + (color.b : ℚ) * intensity))⟩

/-- Shallow embedding of `Colorize::apply`: integer luma `(r+g+b)/3`, factor
`gray / 255.0`, each output channel `color_channel * factor`
clamped-truncated. -/
def Colorize.apply (color : Pixel) (img : Image) : Except TransformError Image :=
  Except.ok ⟨img.width, img.height,
    img.pixels.map (fun p =>
      let gray : Nat := (p.r + p.g + p.b) / 3
      let factor : ℚ := (gray : ℚ) / 255
      Pixel.from_f32 ((color.r : ℚ) * factor) ((color.g : ℚ) * factor)
        ((color.b : ℚ) * factor))⟩

/-- Convolution kernel (`struct Kernel` in `transforms.rs`): `i32` size and a
flat vector of `f32` weights in the rational model. -/
structure Kernel where
  size : Int
  values : List ℚ

/-- The invariants enforced by the `Kernel::new` assertions: Rust
`size % 2 == 1` on `i32` (whose remainder keeps the sign of `size`) forces
a positive odd size, and the values vector has length `size * size`. -/
def Kernel.WF (k : Kernel) : Prop :=
  0 < k.size ∧ k.size % 2 = 1 ∧ k.values.length = (k.size * k.size).toNat

/-- The `f32::EPSILON` constant used by `Kernel::normalize`, exactly. -/
def f32Epsilon : ℚ := 1 / 2 ^ 23

/-- Shallow embedding of `Kernel::normalize`/`normalized`: divide every value
by the sum of all values unless the absolute sum is at most epsilon. -/
def Kernel.normalized (k : Kernel) : Kernel :=
  let sum := k.values.sum
  if |sum| > f32Epsilon then ⟨k.size, k.values.map (fun v => v / sum)⟩ else k

/-- Shallow embedding of `Kernel::get`: look up the weight at signed offset
`(dx, dy)` from the center `size / 2` (Rust `i32` division truncates toward
zero); out-of-range flat indices panic (`none`). -/
def Kernel.get (k : Kernel) (dx dy : Int) : Option ℚ :=
  let center := k.size.tdiv 2
  let idx := (center + dy) * k.size + (center + dx)
  if 0 ≤ idx ∧ idx.toNat < k.values.length then k.values[idx.toNat]? else none

/-- Rust `Ord::clamp` on `i32`: panics (`none`) when `lo > hi`. -/
def intClamp (v lo hi : Int) : Option Int :=
  if lo ≤ hi then some (max lo (min v hi)) else none

/-- The inclusive iteration sequence of Rust `for v in a..=b` with `v : i32`. -/
def intRangeIncl (a b : Int) : List Int :=
  (List.range (b + 1 - a).toNat).map (fun (i : Nat) => a + i)

/-- Shallow embedding of `KernelWindow::get`: clamped sampling of the source
at offset `(dx, dy)` from the window center. -/
def KernelWindow.get (img : Image) (cx cy dx dy : Int) : Option Pixel :=
  match intClamp (cx + dx) 0 (img.width - 1) with
  | none => none
  | some x =>
    match intClamp (cy + dy) 0 (img.height - 1) with
    | none => none
    | some y => readPx img.pixels (y * img.width + x)

/-- Shallow embedding of `KernelWindow::apply_kernel`: accumulate
`channel * weight` over all kernel offsets in float (rational model), then
convert through `Pixel::from_f32`. -/
def KernelWindow.apply_kernel (img : Image) (cx cy : Int) (k : Kernel) :
    Option Pixel :=
  let offset := k.size.tdiv 2
  match foldLoop (intRangeIncl (-offset) offset) (fun acc dy =>
    foldLoop (intRangeIncl (-offset) offset) (fun acc2 dx =>
      match KernelWindow.get img cx cy dx dy with
      | none => none
      | some p =>
        match k.get dx dy with
        | none => none
        | some kv =>
          some (acc2.1 + (p.r : ℚ) * kv, acc2.2.1 + (p.g : ℚ) * kv,
            acc2.2.2 + (p.b : ℚ) * kv)) acc)
    ((0 : ℚ), (0 : ℚ), (0 : ℚ)) with
  | none => none
  | some acc => some (Pixel.from_f32 acc.1 acc.2.1 acc.2.2)

/-- Shallow embedding of the blanket `impl<T: KernelTransformation>
Transformation for T`: apply the kernel window at every pixel of a freshly
allocated buffer of identical dimensions. -/
def kernelApply (k : Kernel) (img : Image) : Option (Except TransformError Image) :=
  if img.width * img.height < 0 then none
  else
    match setLoop img.height img.width
        (fun x y => KernelWindow.apply_kernel img x y k)
        (fun x y => y * img.width + x)
        (List.replicate (img.width * img.height).toNat (Pixel.new 0 0 0)) with
    | none => none
    | some pixels => some (Except.ok ⟨img.width, img.height, pixels⟩)

/-- The `GaussianBlur` kernel from `transforms.rs`: 1 2 1 / 2 4 2 / 1 2 1,
normalized. -/
def GaussianBlur.kernel : Kernel :=
  Kernel.normalized ⟨3, [1, 2, 1, 2, 4, 2, 1, 2, 1]⟩

/-- The `Sharpen` kernel from `transforms.rs` (unnormalized). -/
def Sharpen.kernel : Kernel := ⟨3, [0, -1, 0, -1, 5, -1, 0, -1, 0]⟩

/-- The `EdgeDetect` kernel from `transforms.rs` (unnormalized). -/
def EdgeDetect.kernel : Kernel := ⟨3, [-1, -1, -1, -1, 8, -1, -1, -1, -1]⟩

/-- The `Emboss` kernel from `transforms.rs` (unnormalized). -/
def Emboss.kernel : Kernel := ⟨3, [-2, -1, 0, -1, 1, 1, 0, 1, 2]⟩

/-- Modelled from the spec: the `BoxBlur` type is called by `main.rs`
(`cmd_boxblur`) but its definition is missing from the provided sources. Per
the spec's filter table ("Box blur: all nine weights equal, normalized,
divide by 9") it is a 3×3 kernel of nine equal weights, normalized, applied
by the same generic kernel evaluator as the other filters. -/
def BoxBlur.kernel : Kernel :=
  Kernel.normalized ⟨3, [1, 1, 1, 1, 1, 1, 1, 1, 1]⟩

/-- Modelled from the spec: `BoxBlur`, like every kernel-bearing filter,
gets its `apply` from the generic kernel evaluator. -/
def BoxBlur.apply (img : Image) : Option (Except TransformError Image) :=
  kernelApply BoxBlur.kernel img

/-- A concrete valid 2×2 buffer used in evaluations. -/
def img2x2 : Image :=
  ⟨2, 2, [Pixel.new 10 20 30, Pixel.new 40 50 60,
          Pixel.new 70 80 90, Pixel.new 110 120 130]⟩

/-- A concrete valid 1×2 buffer used in evaluations. -/
def img1x2 : Image := ⟨1, 2, [Pixel.new 1 2 3, Pixel.new 4 5 6]⟩

/-- A concrete valid 1×1 buffer used in evaluations. -/
def img1x1 : Image := ⟨1, 1, [Pixel.new 7 8 9]⟩

/-- C1: each core operation either returns a result or an explicit error and
never faults; in particular Crop with a negative origin (x < 0, x+w ≤ width)
must return an explicit result. The code violates this: on the valid 2×2
buffer, `Crop { x: -1, y: 0, width: 2, height: 2 }` passes the bounds check
(`-1 + 2 ≤ 2`, `0 + 2 ≤ 2`), then computes source index `0*2 + (-1) = -1`,
whose `as usize` cast wraps and the indexing panics (modelled as `none`). -/
theorem crop_negative_origin_panics :
    img2x2.Valid ∧
      Crop.apply ⟨-1, 0, 2, 2⟩ img2x2 = none := by
  constructor
  · decide
  · rfl

theorem intRange_length (n : Int) : (intRange n).length = n.toNat := by
  rw [intRange, List.length_map, List.length_range]

theorem intRange_getElem? {n : Int} {i : ℕ} (h : i < n.toNat) :
    (intRange n)[i]? = some (i : Int) := by
  rw [intRange, List.getElem?_map, List.getElem?_range h]
  rfl

theorem mem_intRange {n v : Int} : v ∈ intRange n ↔ 0 ≤ v ∧ v < n := by
  rw [intRange, List.mem_map]
  constructor
  · rintro ⟨i, hi, rfl⟩
    rw [List.mem_range] at hi
    omega
  · rintro ⟨h0, hn⟩
    refine ⟨v.toNat, ?_, by omega⟩
    rw [List.mem_range]
    omega

theorem collectLoop_eq_some_map {α β : Type} (f : α → Option β) (g : α → β)
    (l : List α) (h : ∀ a ∈ l, f a = some (g a)) :
    collectLoop l f = some (l.map g) := by
  induction l with
  | nil => rfl
  | cons a t ih =>
    rw [collectLoop, h a (by simp), ih (fun x hx => h x (by simp [hx]))]
    rfl

theorem collectLoop_some_length {α β : Type} {f : α → Option β}
    {l : List α} {l' : List β} (h : collectLoop l f = some l') :
    l'.length = l.length := by
  induction l generalizing l' with
  | nil =>
    rw [collectLoop] at h
    cases h
    rfl
  | cons a t ih =>
    rw [collectLoop] at h
    cases hf : f a with
    | none => rw [hf] at h; cases h
    | some b =>
      rw [hf] at h
      cases ht : collectLoop t f with
      | none => rw [ht] at h; cases h
      | some t' =>
        rw [ht] at h
        cases h
        simp [ih ht]

theorem flatten_getElem? {α : Type} (rows : List (List α)) (L : ℕ)
    (hL : ∀ r ∈ rows, r.length = L) (a b : ℕ) (hb : b < L) :
    rows.flatten[a * L + b]? = rows[a]?.bind (fun r => r[b]?) := by
  induction rows generalizing a with
  | nil => simp
  | cons r rest ih =>
    have hr : r.length = L := hL r (by simp)
    cases a with
    | zero =>
      have hlt : 0 * L + b < r.length := by omega
      rw [List.flatten_cons, List.getElem?_append_left hlt]
      simp
    | succ a =>
      have hmul : (a + 1) * L = a * L + L := by ring
      rw [List.flatten_cons, List.getElem?_append_right (by omega)]
      have harith : (a + 1) * L + b - r.length = a * L + b := by omega
      rw [harith, ih (fun x hx => hL x (by simp [hx])) a]
      simp

theorem flatten_length_const {α : Type} (rows : List (List α)) (L : ℕ)
    (hL : ∀ r ∈ rows, r.length = L) : rows.flatten.length = rows.length * L := by
  induction rows with
  | nil => simp
  | cons r rest ih =>
    rw [List.flatten_cons, List.length_append, hL r (by simp),
      ih (fun x hx => hL x (by simp [hx]))]
    simp [Nat.succ_mul]
    ring

/-- Successful-read characterization of `readPx`. -/
theorem readPx_eq_some {pixels : List Pixel} {idx : Int}
    (h0 : 0 ≤ idx) (hlt : idx < (pixels.length : Int)) :
    readPx pixels idx = some (pixels.getD idx.toNat (Pixel.new 0 0 0)) := by
  have hlt' : idx.toNat < pixels.length := by omega
  simp [readPx, h0, hlt', List.getD_eq_getElem?_getD, List.getElem?_eq_getElem hlt']

/-- Core success lemma for `Crop::apply` with non-negative, in-bounds
parameters: it returns the `w×h` rectangle starting at `(x, y)`, row-major,
with pixel values taken directly from the source. -/
theorem Crop.apply_ok (c : Crop) (img : Image) (hv : img.Valid)
    (hx : 0 ≤ c.x) (hy : 0 ≤ c.y) (hw : 0 ≤ c.width) (hh : 0 ≤ c.height)
    (hbx : c.x + c.width ≤ img.width) (hby : c.y + c.height ≤ img.height) :
    ∃ out, Crop.apply c img = some (Except.ok out) ∧
      out.width = c.width ∧ out.height = c.height ∧
      (out.pixels.length : Int) = c.width * c.height ∧
      ∀ dx dy : Int, 0 ≤ dx → dx < c.width → 0 ≤ dy → dy < c.height →
        out.pixels[(dy * c.width + dx).toNat]? =
          img.pixels[((c.y + dy) * img.width + (c.x + dx)).toNat]? := by
  obtain ⟨hW, hH, hlen⟩ := hv
  -- total read function used to characterize the mapM results
  set g : Int → Int → Pixel := fun dy dx =>
    img.pixels.getD ((c.y + dy) * img.width + (c.x + dx)).toNat (Pixel.new 0 0 0) with hg
  have hidx : ∀ dy dx : Int, 0 ≤ dy → dy < c.height → 0 ≤ dx → dx < c.width →
      0 ≤ (c.y + dy) * img.width + (c.x + dx) ∧
        (c.y + dy) * img.width + (c.x + dx) < img.width * img.height := by
    intro dy dx hdy0 hdyh hdx0 hdxw
    have hW1 : 0 < img.width := by omega
    have h1 : 0 ≤ (c.y + dy) * img.width := by
      apply mul_nonneg _ hW
      omega
    have h2 : (c.y + dy) * img.width ≤ (img.height - 1) * img.width := by
      apply mul_le_mul_of_nonneg_right _ hW
      omega
    constructor
    · omega
    · nlinarith
  have hrows : collectLoop (intRange c.height) (fun dy =>
      collectLoop (intRange c.width) (fun dx =>
        readPx img.pixels ((c.y + dy) * img.width + (c.x + dx)))) =
      some ((intRange c.height).map (fun dy => (intRange c.width).map (g dy))) := by
    apply collectLoop_eq_some_map
    intro dy hdy
    rw [mem_intRange] at hdy
    apply collectLoop_eq_some_map
    intro dx hdx
    rw [mem_intRange] at hdx
    obtain ⟨hi0, hilt⟩ := hidx dy dx hdy.1 hdy.2 hdx.1 hdx.2
    exact readPx_eq_some hi0 (by omega)
  have hnoerr : ¬(c.x + c.width > img.width ∨ c.y + c.height > img.height) := by
    omega
  have hwh : ¬(c.width * c.height < 0) := by
    rw [not_lt]
    exact mul_nonneg hw hh
  refine ⟨⟨c.width, c.height,
    ((intRange c.height).map (fun dy => (intRange c.width).map (g dy))).flatten⟩, ?_, rfl, rfl, ?_, ?_⟩
  · rw [Crop.apply, if_neg hnoerr, if_neg hwh, hrows]
  · have hrowlen : ∀ r ∈ (intRange c.height).map (fun dy => (intRange c.width).map (g dy)),
        r.length = c.width.toNat := by
      intro r hr
      rw [List.mem_map] at hr
      obtain ⟨dy, _, rfl⟩ := hr
      simp [intRange_length]
    rw [flatten_length_const _ c.width.toNat hrowlen, List.length_map, intRange_length]
    push_cast
    rw [Int.toNat_of_nonneg hh, Int.toNat_of_nonneg hw]
    ring
  · intro dx dy hdx0 hdxw hdy0 hdyh
    have hrowlen : ∀ r ∈ (intRange c.height).map (fun dy => (intRange c.width).map (g dy)),
        r.length = c.width.toNat := by
      intro r hr
      rw [List.mem_map] at hr
      obtain ⟨dy, _, rfl⟩ := hr
      simp [intRange_length]
    have hsplit : (dy * c.width + dx).toNat = dy.toNat * c.width.toNat + dx.toNat := by
      have hdyw : dy * c.width = ((dy.toNat * c.width.toNat : ℕ) : Int) := by
        push_cast
        rw [Int.toNat_of_nonneg hdy0, Int.toNat_of_nonneg hw]
      omega
    rw [hsplit, flatten_getElem? _ c.width.toNat hrowlen _ _ (by omega)]
    have h1 : ((intRange c.height).map (fun dy => (intRange c.width).map (g dy)))[dy.toNat]? =
        some ((intRange c.width).map (g (dy.toNat : Int))) := by
      rw [List.getElem?_map, intRange_getElem? (by omega : dy.toNat < c.height.toNat)]
      rfl
    have h2 : ((intRange c.width).map (g (dy.toNat : Int)))[dx.toNat]? =
        some (g (dy.toNat : Int) (dx.toNat : Int)) := by
      rw [List.getElem?_map, intRange_getElem? (by omega : dx.toNat < c.width.toNat)]
      rfl
    rw [h1, Option.some_bind, h2]
    have hdy' : ((dy.toNat : Int)) = dy := by omega
    have hdx' : ((dx.toNat : Int)) = dx := by omega
    rw [hdy', hdx', hg]
    obtain ⟨hi0, hilt⟩ := hidx dy dx hdy0 hdyh hdx0 hdxw
    have hlt' : ((c.y + dy) * img.width + (c.x + dx)).toNat < img.pixels.length := by
      omega
    simp [List.getD_eq_getElem?_getD, List.getElem?_eq_getElem hlt']

theorem writePx_some {pixels : List Pixel} {idx : Int} {p : Pixel} {out : List Pixel}
    (h : writePx pixels idx p = some out) :
    0 ≤ idx ∧ idx.toNat < pixels.length ∧ out = pixels.set idx.toNat p := by
  rw [writePx] at h
  by_cases hc : 0 ≤ idx ∧ idx.toNat < pixels.length
  · rw [if_pos hc] at h
    cases h
    exact ⟨hc.1, hc.2, rfl⟩
  · rw [if_neg hc] at h
    cases h

theorem foldLoop_append {σ α : Type} (l₁ l₂ : List α) (f : σ → α → Option σ)
    (init : σ) :
    foldLoop (l₁ ++ l₂) f init =
      (foldLoop l₁ f init).bind (fun acc => foldLoop l₂ f acc) := by
  induction l₁ generalizing init with
  | nil => rfl
  | cons a t ih =>
    rw [List.cons_append, foldLoop, foldLoop]
    cases hfa : f init a with
    | none => rfl
    | some acc => exact ih acc

theorem foldLoop_flatMap {σ α β : Type} (l : List α) (g : α → List β)
    (f : σ → β → Option σ) (init : σ) :
    foldLoop (l.flatMap g) f init =
      foldLoop l (fun acc a => foldLoop (g a) f acc) init := by
  induction l generalizing init with
  | nil => rfl
  | cons a t ih =>
    rw [List.flatMap_cons, foldLoop_append, foldLoop]
    cases hfa : foldLoop (g a) f init with
    | none => rfl
    | some acc => exact ih acc

theorem foldLoop_map {σ α β : Type} (l : List α) (m : α → β)
    (f : σ → β → Option σ) (init : σ) :
    foldLoop (l.map m) f init = foldLoop l (fun acc a => f acc (m a)) init := by
  induction l generalizing init with
  | nil => rfl
  | cons a t ih =>
    rw [List.map_cons, foldLoop, foldLoop]
    cases hfa : f init (m a) with
    | none => rfl
    | some acc => exact ih acc

/-- One iteration of the remap loop body over a `(y, x)` pair. -/
def pixStep (val : Int → Int → Option Pixel) (dst : Int → Int → Int)
    (acc : List Pixel) (yx : Int × Int) : Option (List Pixel) :=
  match val yx.2 yx.1 with
  | none => none
  | some p => writePx acc (dst yx.2 yx.1) p

/-- The row-major `(y, x)` iteration order of the nested loops. -/
def pairs (h w : Int) : List (Int × Int) :=
  (intRange h).flatMap (fun y => (intRange w).map (fun x => (y, x)))

theorem mem_pairs {h w : Int} {yx : Int × Int} :
    yx ∈ pairs h w ↔ 0 ≤ yx.1 ∧ yx.1 < h ∧ 0 ≤ yx.2 ∧ yx.2 < w := by
  rw [pairs, List.mem_flatMap]
  constructor
  · rintro ⟨y, hy, hmem⟩
    rw [List.mem_map] at hmem
    obtain ⟨x, hx, rfl⟩ := hmem
    rw [mem_intRange] at hy hx
    exact ⟨hy.1, hy.2, hx.1, hx.2⟩
  · rintro ⟨h1, h2, h3, h4⟩
    refine ⟨yx.1, mem_intRange.mpr ⟨h1, h2⟩, ?_⟩
    rw [List.mem_map]
    exact ⟨yx.2, mem_intRange.mpr ⟨h3, h4⟩, rfl⟩

theorem setLoop_eq_pairFold (h w : Int) (val : Int → Int → Option Pixel)
    (dst : Int → Int → Int) (init : List Pixel) :
    setLoop h w val dst init = foldLoop (pairs h w) (pixStep val dst) init := by
  rw [setLoop, pairs, foldLoop_flatMap]
  congr 1
  funext acc y
  rw [foldLoop_map]
  rfl

theorem foldLoop_length_invariant {α : Type} (L : List α)
    (step : List Pixel → α → Option (List Pixel))
    (hstep : ∀ acc a out, step acc a = some out → out.length = acc.length) :
    ∀ init out, foldLoop L step init = some out → out.length = init.length := by
  induction L with
  | nil =>
    intro init out h
    rw [foldLoop] at h
    cases h
    rfl
  | cons a t ih =>
    intro init out h
    rw [foldLoop] at h
    cases hfa : step init a with
    | none => rw [hfa] at h; cases h
    | some acc =>
      rw [hfa] at h
      rw [ih acc out h, hstep init a acc hfa]

theorem pixStep_length {val : Int → Int → Option Pixel} {dst : Int → Int → Int}
    {acc : List Pixel} {yx : Int × Int} {out : List Pixel}
    (h : pixStep val dst acc yx = some out) : out.length = acc.length := by
  rw [pixStep] at h
  cases hv : val yx.2 yx.1 with
  | none => rw [hv] at h; cases h
  | some p =>
    rw [hv] at h
    obtain ⟨-, -, rfl⟩ := writePx_some h
    exact List.length_set acc _ p

theorem pairFold_some {val : Int → Int → Option Pixel} {dst : Int → Int → Int}
    (L : List (Int × Int)) :
    ∀ init : List Pixel,
      (∀ yx ∈ L, ∃ p, val yx.2 yx.1 = some p) →
      (∀ yx ∈ L, 0 ≤ dst yx.2 yx.1 ∧ (dst yx.2 yx.1).toNat < init.length) →
      ∃ out, foldLoop L (pixStep val dst) init = some out := by
  induction L with
  | nil =>
    intro init _ _
    exact ⟨init, rfl⟩
  | cons a t ih =>
    intro init hok hin
    obtain ⟨p, hp⟩ := hok a (by simp)
    obtain ⟨hd0, hdlt⟩ := hin a (by simp)
    have hw : writePx init (dst a.2 a.1) p = some (init.set (dst a.2 a.1).toNat p) := by
      rw [writePx, if_pos ⟨hd0, hdlt⟩]
    have hstep : pixStep val dst init a = some (init.set (dst a.2 a.1).toNat p) := by
      rw [pixStep, hp]
      exact hw
    obtain ⟨out, hout⟩ := ih (init.set (dst a.2 a.1).toNat p)
      (fun yx hyx => hok yx (by simp [hyx]))
      (fun yx hyx => by
        rw [List.length_set]
        exact hin yx (by simp [hyx]))
    refine ⟨out, ?_⟩
    rw [foldLoop, hstep]
    exact hout

theorem pairFold_get_untouched {val : Int → Int → Option Pixel}
    {dst : Int → Int → Int} (L : List (Int × Int)) :
    ∀ init out : List Pixel, foldLoop L (pixStep val dst) init = some out →
      ∀ j : ℕ, (∀ yx ∈ L, (dst yx.2 yx.1).toNat ≠ j) → out[j]? = init[j]? := by
  induction L with
  | nil =>
    intro init out h j _
    rw [foldLoop] at h
    cases h
    rfl
  | cons a t ih =>
    intro init out h j hj
    rw [foldLoop] at h
    cases hfa : pixStep val dst init a with
    | none => rw [hfa] at h; cases h
    | some acc =>
      rw [hfa] at h
      have h1 : out[j]? = acc[j]? := ih acc out h j (fun yx hyx => hj yx (by simp [hyx]))
      rw [h1]
      rw [pixStep] at hfa
      cases hv : val a.2 a.1 with
      | none => rw [hv] at hfa; cases hfa
      | some p =>
        rw [hv] at hfa
        obtain ⟨-, -, rfl⟩ := writePx_some hfa
        exact List.getElem?_set_ne (hj a (by simp))

theorem pairFold_get_hit {val : Int → Int → Option Pixel} {dst : Int → Int → Int}
    (L : List (Int × Int)) :
    ∀ init out : List Pixel, foldLoop L (pixStep val dst) init = some out →
      (∀ a ∈ L, ∀ b ∈ L, (dst a.2 a.1).toNat = (dst b.2 b.1).toNat → a = b) →
      ∀ yx ∈ L, out[(dst yx.2 yx.1).toNat]? = val yx.2 yx.1 := by
  induction L with
  | nil =>
    intro init out _ _ yx hmem
    cases hmem
  | cons a t ih =>
    intro init out h hinj yx hmem
    rw [foldLoop] at h
    cases hfa : pixStep val dst init a with
    | none => rw [hfa] at h; cases h
    | some acc =>
      rw [hfa] at h
      by_cases hmt : yx ∈ t
      · exact ih acc out h
          (fun p hp q hq hpq => hinj p (by simp [hp]) q (by simp [hq]) hpq) yx hmt
      · have hya : yx = a := by
          rcases List.mem_cons.mp hmem with h1 | h1
          · exact h1
          · exact absurd h1 hmt
        subst hya
        have huntouched : out[(dst yx.2 yx.1).toNat]? = acc[(dst yx.2 yx.1).toNat]? := by
          apply pairFold_get_untouched t acc out h
          intro b hb heq
          have : b = yx := hinj b (by simp [hb]) yx (by simp) heq
          subst this
          exact hmt hb
        rw [huntouched]
        rw [pixStep] at hfa
        cases hv : val yx.2 yx.1 with
        | none => rw [hv] at hfa; cases hfa
        | some p =>
          rw [hv] at hfa
          obtain ⟨-, hlt, rfl⟩ := writePx_some hfa
          exact List.getElem?_set_eq_of_lt p hlt

/-- Helper bound: a row-major flat index `a*B + b` built from in-range
coordinates lies inside the grid. -/
theorem grid_index_bound {a b A B : Int} (ha0 : 0 ≤ a) (haA : a < A)
    (hb0 : 0 ≤ b) (hbB : b < B) : 0 ≤ a * B + b ∧ a * B + b < A * B := by
  have h1 : 0 ≤ a * B := mul_nonneg ha0 (by omega)
  have h2 : a * B ≤ (A - 1) * B := mul_le_mul_of_nonneg_right (by omega) (by omega)
  have h3 : (A - 1) * B = A * B - B := by ring
  omega

/-- Helper injectivity of the row-major flat index for in-range coordinates. -/
theorem grid_index_inj {a₁ b₁ a₂ b₂ B : Int} (hb₁0 : 0 ≤ b₁) (hb₁B : b₁ < B)
    (hb₂0 : 0 ≤ b₂) (hb₂B : b₂ < B)
    (h : a₁ * B + b₁ = a₂ * B + b₂) : a₁ = a₂ ∧ b₁ = b₂ := by
  have key : ∀ x₁ y₁ x₂ y₂ : Int, 0 ≤ y₁ → y₁ < B → 0 ≤ y₂ → y₂ < B →
      x₁ < x₂ → x₁ * B + y₁ < x₂ * B + y₂ := by
    intro x₁ y₁ x₂ y₂ hy₁0 hy₁B hy₂0 hy₂B hx
    have h1 : (x₁ + 1) * B ≤ x₂ * B := mul_le_mul_of_nonneg_right (by omega) (by omega)
    have h2 : (x₁ + 1) * B = x₁ * B + B := by ring
    omega
  rcases lt_trichotomy a₁ a₂ with hlt | heq | hgt
  · have := key a₁ b₁ a₂ b₂ hb₁0 hb₁B hb₂0 hb₂B hlt
    omega
  · subst heq
    omega
  · have := key a₂ b₂ a₁ b₁ hb₂0 hb₂B hb₁0 hb₁B hgt
    omega

/-- Characterization of a remap loop whose body always succeeds, writes in
bounds, and writes each destination cell at most once: the loop succeeds,
preserves the buffer length, and the cell written for `(x, y)` holds exactly
the computed value. -/
theorem setLoop_spec (h w : Int) (val : Int → Int → Option Pixel)
    (dst : Int → Int → Int) (init : List Pixel)
    (hok : ∀ x y : Int, 0 ≤ y → y < h → 0 ≤ x → x < w → ∃ p, val x y = some p)
    (hin : ∀ x y : Int, 0 ≤ y → y < h → 0 ≤ x → x < w →
      0 ≤ dst x y ∧ (dst x y).toNat < init.length)
    (hinj : ∀ x₁ y₁ x₂ y₂ : Int, 0 ≤ y₁ → y₁ < h → 0 ≤ x₁ → x₁ < w →
      0 ≤ y₂ → y₂ < h → 0 ≤ x₂ → x₂ < w →
      (dst x₁ y₁).toNat = (dst x₂ y₂).toNat → x₁ = x₂ ∧ y₁ = y₂) :
    ∃ out, setLoop h w val dst init = some out ∧ out.length = init.length ∧
      ∀ x y : Int, 0 ≤ y → y < h → 0 ≤ x → x < w →
        out[(dst x y).toNat]? = val x y := by
  rw [setLoop_eq_pairFold]
  obtain ⟨out, hout⟩ := pairFold_some (pairs h w) init
    (fun yx hm => by
      rw [mem_pairs] at hm
      exact hok yx.2 yx.1 hm.1 hm.2.1 hm.2.2.1 hm.2.2.2)
    (fun yx hm => by
      rw [mem_pairs] at hm
      exact hin yx.2 yx.1 hm.1 hm.2.1 hm.2.2.1 hm.2.2.2)
  refine ⟨out, hout,
    foldLoop_length_invariant _ _ (fun acc a o ho => pixStep_length ho) init out hout, ?_⟩
  intro x y hy0 hyh hx0 hxw
  exact pairFold_get_hit (pairs h w) init out hout
    (fun a hma b hmb heq => by
      rw [mem_pairs] at hma hmb
      obtain ⟨he2, he1⟩ := hinj a.2 a.1 b.2 b.1 hma.1 hma.2.1 hma.2.2.1 hma.2.2.2
        hmb.1 hmb.2.1 hmb.2.2.1 hmb.2.2.2 heq
      exact Prod.ext_iff.mpr ⟨he1, he2⟩)
    (y, x) (mem_pairs.mpr ⟨hy0, hyh, hx0, hxw⟩)

/-- Successful in-bounds read as a plain list lookup. -/
theorem readPx_eq_getElem? {pixels : List Pixel} {idx : Int}
    (h0 : 0 ≤ idx) (hlt : idx < (pixels.length : Int)) :
    readPx pixels idx = pixels[idx.toNat]? := by
  rw [readPx, if_pos ⟨h0, by omega⟩]

/-- C3 (amended): Crop returns the OutOfBounds error exactly when
`x+w > width` or `y+h > height`; when neither inequality holds and the
parameters are additionally non-negative, it succeeds and the output is the
`w×h` rectangle of the source starting at `(x, y)`, row-major, with pixel
values preserved exactly. (Without the non-negativity proviso the code can
panic instead of succeeding; see the counterexample.) -/
theorem crop_oob_iff_and_nonneg_success (c : Crop) (img : Image) (hv : img.Valid) :
    (Crop.apply c img = some (Except.error TransformError.outOfBounds) ↔
      img.width < c.x + c.width ∨ img.height < c.y + c.height)
    ∧ (0 ≤ c.x → 0 ≤ c.y → 0 ≤ c.width → 0 ≤ c.height →
       c.x + c.width ≤ img.width → c.y + c.height ≤ img.height →
       ∃ out, Crop.apply c img = some (Except.ok out) ∧
         out.width = c.width ∧ out.height = c.height ∧
         (out.pixels.length : Int) = c.width * c.height ∧
         ∀ dx dy : Int, 0 ≤ dx → dx < c.width → 0 ≤ dy → dy < c.height →
           out.pixels[(dy * c.width + dx).toNat]? =
             img.pixels[((c.y + dy) * img.width + (c.x + dx)).toNat]?) := by
  constructor
  · constructor
    · intro h
      by_contra hcond
      rw [Crop.apply, if_neg (by omega)] at h
      by_cases hwh : c.width * c.height < 0
      · rw [if_pos hwh] at h
        cases h
      · rw [if_neg hwh] at h
        cases hrows : collectLoop (intRange c.height) (fun dy =>
            collectLoop (intRange c.width) (fun dx =>
              readPx img.pixels ((c.y + dy) * img.width + (c.x + dx)))) with
        | none => rw [hrows] at h; cases h
        | some rows =>
          rw [hrows] at h
          simp at h
    · intro h
      rw [Crop.apply, if_pos (by omega)]
  · intro hx hy hw hh hbx hby
    exact Crop.apply_ok c img hv hx hy hw hh hbx hby

/-- Witness for the amended C3 theorem: the full in-bounds crop of the
concrete 2×2 buffer succeeds. -/
theorem crop_oob_iff_and_nonneg_success_witness :
    img2x2.Valid ∧ ∃ out, Crop.apply ⟨0, 0, 2, 2⟩ img2x2 = some (Except.ok out) := by
  refine ⟨by decide, ?_⟩
  obtain ⟨out, hout, -⟩ :=
    (crop_oob_iff_and_nonneg_success ⟨0, 0, 2, 2⟩ img2x2 (by decide)).2
      (by decide) (by decide) (by decide) (by decide) (by decide) (by decide)
  exact ⟨out, hout⟩

/-- C3 is false exactly as stated: on the valid 1×2 buffer,
`Crop { x: 0, y: -1, width: 1, height: 2 }` triggers neither
`x+w > width` nor `y+h > height`, yet the code neither returns OutOfBounds
nor the rectangle: it computes source index `(-1)*1 + 0 = -1` and panics
(modelled as `none`). -/
theorem crop_counterexample_no_oob_yet_panics :
    img1x2.Valid ∧
      ¬(img1x2.width < 0 + 1 ∨ img1x2.height < -1 + 2) ∧
      Crop.apply ⟨0, -1, 1, 2⟩ img1x2 = none := by
  refine ⟨by decide, by decide, rfl⟩

/-- C4 is false as stated ("for all inputs"): on the valid 1×1 buffer,
`Crop { x: 0, y: 0, width: -1, height: -2 }` passes the bounds check and
returns a buffer with width -1, height -2 and an empty pixel vector, so both
the non-negativity of dimensions and `pixels.length = width*height`
(`0 ≠ (-1)*(-2) = 2`) are violated. -/
theorem crop_counterexample_invariant_broken :
    img1x1.Valid ∧
      Crop.apply ⟨0, 0, -1, -2⟩ img1x1 = some (Except.ok ⟨-1, -2, []⟩) ∧
      ¬(Image.mk (-1) (-2) []).Valid := by
  refine ⟨by decide, rfl, by decide⟩

/-- Characterization of a successful 90° rotation of a valid buffer: the
dimensions swap and the destination pixel at flat index `Y*H + X` (in the
`H`-wide output) is the source pixel at `(H-1-X)*W + Y`, where `W`, `H` are
the source dimensions. -/
theorem rotate90_ok (img : Image) (hv : img.Valid) :
    ∃ out, Rotate.apply ⟨RotateAngle.deg90⟩ img = some (Except.ok out) ∧
      out.width = img.height ∧ out.height = img.width ∧
      (out.pixels.length : Int) = img.width * img.height ∧
      ∀ X Y : Int, 0 ≤ X → X < img.height → 0 ≤ Y → Y < img.width →
        out.pixels[(Y * img.height + X).toNat]? =
          img.pixels[((img.height - 1 - X) * img.width + Y).toNat]? := by
  obtain ⟨hW, hH, hlen⟩ := hv
  have hcomm : img.height * img.width = img.width * img.height := mul_comm _ _
  obtain ⟨outpx, hloop, hlenout, hget⟩ :=
    setLoop_spec img.height img.width
      (fun x y => readPx img.pixels (y * img.width + x))
      (fun x y => x * img.height + (img.height - 1 - y))
      (List.replicate (img.height * img.width).toNat (Pixel.new 0 0 0))
      (fun x y hy0 hyh hx0 hxw => by
        obtain ⟨hlo, hhi⟩ := grid_index_bound hy0 hyh hx0 hxw
        exact ⟨_, readPx_eq_some hlo (by omega)⟩)
      (fun x y hy0 hyh hx0 hxw => by
        dsimp only
        obtain ⟨hlo, hhi⟩ := grid_index_bound hx0 hxw
          (show (0 : Int) ≤ img.height - 1 - y by omega)
          (show img.height - 1 - y < img.height by omega)
        rw [List.length_replicate]
        omega)
      (fun x₁ y₁ x₂ y₂ hy₁0 hy₁h hx₁0 hx₁w hy₂0 hy₂h hx₂0 hx₂w heq => by
        dsimp only at heq
        have hb₁ := grid_index_bound hx₁0 hx₁w
          (show (0 : Int) ≤ img.height - 1 - y₁ by omega)
          (show img.height - 1 - y₁ < img.height by omega)
        have hb₂ := grid_index_bound hx₂0 hx₂w
          (show (0 : Int) ≤ img.height - 1 - y₂ by omega)
          (show img.height - 1 - y₂ < img.height by omega)
        have heqi : x₁ * img.height + (img.height - 1 - y₁) =
            x₂ * img.height + (img.height - 1 - y₂) := by omega
        obtain ⟨ha, hb⟩ := grid_index_inj
          (show (0 : Int) ≤ img.height - 1 - y₁ by omega)
          (show img.height - 1 - y₁ < img.height by omega)
          (show (0 : Int) ≤ img.height - 1 - y₂ by omega)
          (show img.height - 1 - y₂ < img.height by omega) heqi
        exact ⟨ha, by omega⟩)
  refine ⟨⟨img.height, img.width, outpx⟩, ?_, rfl, rfl, ?_, ?_⟩
  · simp only [Rotate.apply]
    rw [if_neg (by rw [not_lt]; exact mul_nonneg hH hW)]
    rw [hloop]
  · rw [hlenout, List.length_replicate]
    omega
  · intro X Y hX0 hXh hY0 hYw
    have h1 := hget Y (img.height - 1 - X) (by omega) (by omega) hY0 hYw
    have h2 : Y * img.height + (img.height - 1 - (img.height - 1 - X)) =
        Y * img.height + X := by omega
    rw [h2] at h1
    rw [h1]
    have hb := grid_index_bound
      (show (0 : Int) ≤ img.height - 1 - X by omega)
      (show img.height - 1 - X < img.height by omega) hY0 hYw
    exact readPx_eq_getElem? hb.1 (by omega)

theorem Image.ext {a b : Image} (hw : a.width = b.width) (hh : a.height = b.height)
    (hp : a.pixels = b.pixels) : a = b := by
  cases a
  cases b
  simp_all

/-- C7: for every valid buffer, applying Rotate(90) four times in succession
yields a buffer identical to the original: the same width and height and the
same pixel value at every position. -/
theorem rotate90_four_times_identity (img : Image) (hv : img.Valid) :
    ∃ i1 i2 i3, Rotate.apply ⟨RotateAngle.deg90⟩ img = some (Except.ok i1) ∧
      Rotate.apply ⟨RotateAngle.deg90⟩ i1 = some (Except.ok i2) ∧
      Rotate.apply ⟨RotateAngle.deg90⟩ i2 = some (Except.ok i3) ∧
      Rotate.apply ⟨RotateAngle.deg90⟩ i3 = some (Except.ok img) := by
  obtain ⟨hW, hH, hlen⟩ := hv
  obtain ⟨i1, ha1, hw1, hh1, hl1, hg1⟩ := rotate90_ok img ⟨hW, hH, hlen⟩
  have hv1 : i1.Valid := by
    refine ⟨by omega, by omega, ?_⟩
    rw [hw1, hh1, hl1]
    ring
  obtain ⟨i2, ha2, hw2, hh2, hl2, hg2⟩ := rotate90_ok i1 hv1
  have hw2' : i2.width = img.width := by rw [hw2, hh1]
  have hh2' : i2.height = img.height := by rw [hh2, hw1]
  have hv2 : i2.Valid := by
    refine ⟨by omega, by omega, ?_⟩
    rw [hw2', hh2', hl2, hw1, hh1]
    ring
  obtain ⟨i3, ha3, hw3, hh3, hl3, hg3⟩ := rotate90_ok i2 hv2
  have hw3' : i3.width = img.height := by rw [hw3, hh2']
  have hh3' : i3.height = img.width := by rw [hh3, hw2']
  have hv3 : i3.Valid := by
    refine ⟨by omega, by omega, ?_⟩
    rw [hw3', hh3', hl3, hw2', hh2']
    ring
  obtain ⟨i4, ha4, hw4, hh4, hl4, hg4⟩ := rotate90_ok i3 hv3
  have hw4' : i4.width = img.width := by rw [hw4, hh3']
  have hh4' : i4.height = img.height := by rw [hh4, hw3']
  -- composed pixel formulas
  have hg2' : ∀ X Y : Int, 0 ≤ X → X < img.width → 0 ≤ Y → Y < img.height →
      i2.pixels[(Y * img.width + X).toNat]? =
        img.pixels[((img.height - 1 - Y) * img.width + (img.width - 1 - X)).toNat]? := by
    intro X Y hX0 hXW hY0 hYH
    have h := hg2 X Y hX0 (by omega) hY0 (by omega)
    rw [hh1, hw1] at h
    rw [hg1 Y (img.width - 1 - X) hY0 hYH (by omega) (by omega)] at h
    exact h
  have hg3' : ∀ X Y : Int, 0 ≤ X → X < img.height → 0 ≤ Y → Y < img.width →
      i3.pixels[(Y * img.height + X).toNat]? =
        img.pixels[(X * img.width + (img.width - 1 - Y)).toNat]? := by
    intro X Y hX0 hXH hY0 hYW
    have h := hg3 X Y hX0 (by omega) hY0 (by omega)
    rw [hh2', hw2'] at h
    rw [hg2' Y (img.height - 1 - X) hY0 hYW (by omega) (by omega)] at h
    have e : img.height - 1 - (img.height - 1 - X) = X := by omega
    rw [e] at h
    exact h
  have hg4' : ∀ X Y : Int, 0 ≤ X → X < img.width → 0 ≤ Y → Y < img.height →
      i4.pixels[(Y * img.width + X).toNat]? =
        img.pixels[(Y * img.width + X).toNat]? := by
    intro X Y hX0 hXW hY0 hYH
    have h := hg4 X Y hX0 (by omega) hY0 (by omega)
    rw [hh3', hw3'] at h
    rw [hg3' Y (img.width - 1 - X) hY0 hYH (by omega) (by omega)] at h
    have e : img.width - 1 - (img.width - 1 - X) = X := by omega
    rw [e] at h
    exact h
  -- lengths agree
  have hlenprod : img.pixels.length = img.width.toNat * img.height.toNat := by
    have hcast : (img.width : Int) * img.height =
        ((img.width.toNat * img.height.toNat : ℕ) : Int) := by
      push_cast
      rw [Int.toNat_of_nonneg hW, Int.toNat_of_nonneg hH]
    omega
  have hlen4 : i4.pixels.length = img.pixels.length := by
    have h := hl4
    rw [hw3', hh3'] at h
    have hcast : img.height * img.width = img.width * img.height := by ring
    omega
  -- pixelwise equality
  have hpx : i4.pixels = img.pixels := by
    apply List.ext_getElem?
    intro j
    by_cases hj : j < img.pixels.length
    · have hWpos : 0 < img.width.toNat := by
        rcases Nat.eq_zero_or_pos img.width.toNat with h0 | h0
        · rw [h0] at hlenprod; omega
        · exact h0
      have hdiv : j / img.width.toNat < img.height.toNat := by
        rw [Nat.div_lt_iff_lt_mul hWpos]
        calc j < img.width.toNat * img.height.toNat := by omega
          _ = img.height.toNat * img.width.toNat := by ring
      have hmod : j % img.width.toNat < img.width.toNat := Nat.mod_lt _ hWpos
      have hrec := Nat.div_add_mod j img.width.toNat
      have hidx : (((j / img.width.toNat : ℕ) : Int) * img.width +
          ((j % img.width.toNat : ℕ) : Int)).toNat = j := by
        obtain ⟨Wn, hWn⟩ : ∃ n : ℕ, img.width = (n : Int) := ⟨img.width.toNat, by omega⟩
        have hWn' : img.width.toNat = Wn := by omega
        rw [hWn', hWn]
        have hprod : ((j / Wn : ℕ) : Int) * ((Wn : ℕ) : Int) =
            ((j / Wn * Wn : ℕ) : Int) := by
          push_cast
          ring
        have hrec2 : j / Wn * Wn + j % Wn = j := by
          have h1 := Nat.div_add_mod j Wn
          have h2 : Wn * (j / Wn) = j / Wn * Wn := by ring
          omega
        omega
      have hmodI : ((j % img.width.toNat : ℕ) : Int) < img.width := by
        have hcast : ((j % img.width.toNat : ℕ) : Int) < ((img.width.toNat : ℕ) : Int) := by
          exact_mod_cast hmod
        omega
      have hdivI : ((j / img.width.toNat : ℕ) : Int) < img.height := by
        have hcast : ((j / img.width.toNat : ℕ) : Int) < ((img.height.toNat : ℕ) : Int) := by
          exact_mod_cast hdiv
        omega
      have h := hg4' ((j % img.width.toNat : ℕ) : Int) ((j / img.width.toNat : ℕ) : Int)
        (Int.natCast_nonneg _) hmodI (Int.natCast_nonneg _) hdivI
      rw [hidx] at h
      exact h
    · rw [List.getElem?_eq_none (by omega), List.getElem?_eq_none (by omega)]
  have hfinal : i4 = img := Image.ext hw4' hh4' hpx
  exact ⟨i1, i2, i3, ha1, ha2, ha3, hfinal ▸ ha4⟩

/-- Witness for C7 at a concrete valid 1×2 buffer. -/
theorem rotate90_four_times_identity_witness :
    img1x2.Valid ∧
      ∃ i1 i2 i3, Rotate.apply ⟨RotateAngle.deg90⟩ img1x2 = some (Except.ok i1) ∧
        Rotate.apply ⟨RotateAngle.deg90⟩ i1 = some (Except.ok i2) ∧
        Rotate.apply ⟨RotateAngle.deg90⟩ i2 = some (Except.ok i3) ∧
        Rotate.apply ⟨RotateAngle.deg90⟩ i3 = some (Except.ok img1x2) :=
  ⟨by decide, rotate90_four_times_identity img1x2 (by decide)⟩

/-- C9: Invert is an involution: applying it twice yields a buffer equal to
the original exactly, for all 8-bit channel values. -/
theorem invert_involutive (img : Image) (hpx : ∀ p ∈ img.pixels, p.Valid) :
    ∃ mid, Invert.apply img = Except.ok mid ∧ Invert.apply mid = Except.ok img := by
  refine ⟨_, rfl, ?_⟩
  rw [Invert.apply]
  dsimp only
  have hpix : (img.pixels.map (fun p => Pixel.new (255 - p.r) (255 - p.g) (255 - p.b))).map
      (fun p => Pixel.new (255 - p.r) (255 - p.g) (255 - p.b)) = img.pixels := by
    rw [List.map_map]
    conv_rhs => rw [← List.map_id img.pixels]
    apply List.map_congr_left
    intro p hp
    have hv2 := hpx p hp
    cases p with
    | mk r g b =>
      obtain ⟨hr, hg, hb⟩ := hv2
      dsimp only at hr hg hb
      simp only [Function.comp, Pixel.new, id, Pixel.mk.injEq]
      refine ⟨?_, ?_, ?_⟩ <;> omega
  rw [hpix]

/-- Witness for C9 at a concrete valid buffer. -/
theorem invert_involutive_witness :
    (∀ p ∈ img2x2.pixels, p.Valid) ∧
      ∃ mid, Invert.apply img2x2 = Except.ok mid ∧
        Invert.apply mid = Except.ok img2x2 :=
  ⟨by decide, invert_involutive img2x2 (by decide)⟩

/-- Error type of `error.rs` (`enum ProcessError`); the boxed `dyn Error`
payloads carried by some variants are abstracted away. -/
inductive ProcessError where
  | imageLoad (path : String)
  | fileWrite (path : String)
  | outOfBoundsOp (operation details : String)
  | jpegEncoding
  | compressionTargetTooSmall (target_kb target_bytes min_kb min_bytes : Nat)
deriving Repr, DecidableEq

/-- Shallow embedding of the `while low <= high` binary-search loop of
`save_jpeg_compressed` (`compression.rs`), parameterized by the encode oracle
(the external JPEG codec is a black box mapping a quality to encoded bytes or
an encoder error, wrapped as `JpegEncoding` by `encode_jpeg_to_buffer`).

Returns the loop's outcome — the best `(quality, bytes)` found within budget,
if any, or the propagated encoding error — together with the number of
oracle invocations. The loop interval shrinks by at least one per iteration,
so running it with `fuel = high + 1 - low` is exact (see
`compressGo_fuel_stable`); the structural `fuel` argument makes the
definition computable by the kernel. The Rust early-exit test
`size as f64 >= max_size as f64 * 0.99` is modelled exactly over the
rationals as `100 * size ≥ 99 * max_size`. `low`/`high`/`mid` are `u8` in
Rust; starting from `(1, 100)` they stay inside `[0, 101]`, where `Nat`
arithmetic coincides with `u8` arithmetic. -/
def compressGo (enc : Nat → Except Unit (List Nat)) (maxSize : Nat) :
    Nat → Nat → Nat → Option (Nat × List Nat) →
      Except ProcessError (Option (Nat × List Nat)) × Nat
  | 0, _, _, best => (Except.ok best, 0)
  | fuel + 1, low, high, best =>
    if low ≤ high then
      let mid := (low + high) / 2
      match enc mid with
      | Except.error _ => (Except.error ProcessError.jpegEncoding, 1)
      | Except.ok encoded =>
        if encoded.length ≤ maxSize then
          if 100 * encoded.length ≥ 99 * maxSize then
            (Except.ok (some (mid, encoded)), 1)
          else
            let r := compressGo enc maxSize fuel (mid + 1) high (some (mid, encoded))
            (r.1, r.2 + 1)
        else
          let r := compressGo enc maxSize fuel low (mid - 1) best
          (r.1, r.2 + 1)
    else (Except.ok best, 0)

/-- The fuel is irrelevant once it covers the interval width (for the
reachable states, whose `low` is at least 1), so `compressGo` with fuel
`high + 1 - low` is an exact rendering of the Rust `while low <= high`
loop. -/
theorem compressGo_fuel_stable (enc : Nat → Except Unit (List Nat)) (maxSize : Nat) :
    ∀ fuel low high best, 1 ≤ low → high + 1 - low ≤ fuel →
      compressGo enc maxSize (fuel + 1) low high best =
        compressGo enc maxSize fuel low high best := by
  intro fuel
  induction fuel with
  | zero =>
    intro low high best hlow hspan
    rw [compressGo, compressGo, if_neg (by omega)]
  | succ n ih =>
    intro low high best hlow hspan
    rw [compressGo, compressGo]
    by_cases hlh : low ≤ high
    · rw [if_pos hlh, if_pos hlh]
      dsimp only
      cases enc ((low + high) / 2) with
      | error e => rfl
      | ok encoded =>
        dsimp only
        by_cases hsize : encoded.length ≤ maxSize
        · rw [if_pos hsize, if_pos hsize]
          by_cases hearly : 100 * encoded.length ≥ 99 * maxSize
          · rw [if_pos hearly, if_pos hearly]
          · rw [if_neg hearly, if_neg hearly,
              ih ((low + high) / 2 + 1) high _ (by omega) (by omega)]
        · rw [if_neg hsize, if_neg hsize,
            ih low ((low + high) / 2 - 1) best (by omega) (by omega)]
    · rw [if_neg hlh, if_neg hlh]

/-- Shallow embedding of `save_jpeg_compressed` (`compression.rs`),
parameterized by the encode oracle and the filesystem-write oracle
(`std::fs::write`). Besides the returned `Result`, the embedding records the
total number of encode-oracle invocations and the trace of byte vectors
passed to the write oracle. -/
def save_jpeg_compressed (enc : Nat → Except Unit (List Nat))
    (write : List Nat → Except Unit Unit) (path : String) (maxSize : Nat) :
    Except ProcessError Unit × Nat × List (List Nat) :=
  match compressGo enc maxSize 100 1 100 none with
  | (Except.error e, n) => (Except.error e, n, [])
  | (Except.ok (some (_q, data)), n) =>
    match write data with
    | Except.ok _ => (Except.ok (), n, [data])
    | Except.error _ => (Except.error (ProcessError.fileWrite path), n, [data])
  | (Except.ok none, n) =>
    match enc 10 with
    | Except.error _ => (Except.error ProcessError.jpegEncoding, n + 1, [])
    | Except.ok minEnc =>
      (Except.error (ProcessError.compressionTargetTooSmall (maxSize / 1024) maxSize
        (minEnc.length / 1024) minEnc.length), n + 1, [])

theorem compressGo_count_le (enc : Nat → Except Unit (List Nat)) (maxSize : Nat) :
    ∀ k fuel low high best, 1 ≤ low → high + 1 - low ≤ 2 ^ k - 1 →
      (compressGo enc maxSize fuel low high best).2 ≤ k := by
  intro k
  induction k with
  | zero =>
    intro fuel low high best hlow hspan
    cases fuel with
    | zero => rw [compressGo]
    | succ n => rw [compressGo, if_neg (by omega)]
  | succ k ih =>
    intro fuel low high best hlow hspan
    cases fuel with
    | zero => rw [compressGo]; exact Nat.zero_le _
    | succ n =>
      rw [compressGo]
      by_cases hlh : low ≤ high
      · rw [if_pos hlh]
        dsimp only
        have hA : 1 ≤ 2 ^ k := Nat.one_le_two_pow
        have h2 : 2 ^ (k + 1) = 2 * 2 ^ k := by ring
        have hmid1 : low ≤ (low + high) / 2 := by omega
        have hmid2 : (low + high) / 2 ≤ high := by omega
        cases henc : enc ((low + high) / 2) with
        | error e => dsimp only; omega
        | ok encoded =>
          dsimp only
          by_cases hsize : encoded.length ≤ maxSize
          · rw [if_pos hsize]
            by_cases hearly : 100 * encoded.length ≥ 99 * maxSize
            · rw [if_pos hearly]
              dsimp only
              omega
            · rw [if_neg hearly]
              dsimp only
              have := ih n ((low + high) / 2 + 1) high
                (some ((low + high) / 2, encoded)) (by omega) (by omega)
              omega
          · rw [if_neg hsize]
            dsimp only
            have := ih n low ((low + high) / 2 - 1) best hlow (by omega)
            omega
      · rw [if_neg hlh]; exact Nat.zero_le _

theorem compressGo_some_ne_none (enc : Nat → Except Unit (List Nat)) (maxSize : Nat) :
    ∀ fuel low high v,
      (compressGo enc maxSize fuel low high (some v)).1 ≠ Except.ok none := by
  intro fuel
  induction fuel with
  | zero =>
    intro low high v
    rw [compressGo]
    simp
  | succ n ih =>
    intro low high v
    rw [compressGo]
    by_cases hlh : low ≤ high
    · rw [if_pos hlh]
      dsimp only
      cases henc : enc ((low + high) / 2) with
      | error e => simp
      | ok encoded =>
        dsimp only
        by_cases hsize : encoded.length ≤ maxSize
        · rw [if_pos hsize]
          by_cases hearly : 100 * encoded.length ≥ 99 * maxSize
          · rw [if_pos hearly]; simp
          · rw [if_neg hearly]
            dsimp only
            exact ih _ _ _
        · rw [if_neg hsize]
          dsimp only
          exact ih _ _ _
    · rw [if_neg hlh]; simp

theorem compressGo_none_count (enc : Nat → Except Unit (List Nat)) (maxSize : Nat) :
    ∀ k fuel low high, 1 ≤ low → high + 1 - low ≤ 2 ^ (k + 1) - 2 →
      (compressGo enc maxSize fuel low high none).1 = Except.ok none →
      (compressGo enc maxSize fuel low high none).2 ≤ k := by
  intro k
  induction k with
  | zero =>
    intro fuel low high hlow hspan _
    cases fuel with
    | zero => rw [compressGo]
    | succ n => rw [compressGo, if_neg (by omega)]
  | succ k ih =>
    intro fuel low high hlow hspan hres
    cases fuel with
    | zero => rw [compressGo]; exact Nat.zero_le _
    | succ n =>
      rw [compressGo] at hres ⊢
      by_cases hlh : low ≤ high
      · rw [if_pos hlh] at hres ⊢
        dsimp only at hres ⊢
        have hA : 2 ≤ 2 ^ (k + 1) := by
          calc 2 = 2 ^ 1 := by norm_num
            _ ≤ 2 ^ (k + 1) := Nat.pow_le_pow_right (by norm_num) (by omega)
        have h2 : 2 ^ (k + 1 + 1) = 2 * 2 ^ (k + 1) := by ring
        have hmid1 : low ≤ (low + high) / 2 := by omega
        have hmid2 : (low + high) / 2 ≤ high := by omega
        cases henc : enc ((low + high) / 2) with
        | error e =>
          rw [henc] at hres
          simp at hres
        | ok encoded =>
          rw [henc] at hres
          dsimp only at hres ⊢
          by_cases hsize : encoded.length ≤ maxSize
          · rw [if_pos hsize] at hres ⊢
            by_cases hearly : 100 * encoded.length ≥ 99 * maxSize
            · rw [if_pos hearly] at hres
              simp at hres
            · rw [if_neg hearly] at hres
              dsimp only at hres
              exact absurd hres (compressGo_some_ne_none enc maxSize n _ _ _)
          · rw [if_neg hsize] at hres ⊢
            dsimp only at hres ⊢
            have := ih n low ((low + high) / 2 - 1) hlow (by omega) hres
            omega
      · rw [if_neg hlh]
        exact Nat.zero_le _

theorem compressGo_all_big (sizes : Nat → List Nat) (maxSize : Nat)
    (hbig : ∀ q, maxSize < (sizes q).length) :
    ∀ fuel low high,
      (compressGo (fun q => Except.ok (sizes q)) maxSize fuel low high none).1 =
        Except.ok none := by
  intro fuel
  induction fuel with
  | zero => intro low high; rw [compressGo]
  | succ n ih =>
    intro low high
    rw [compressGo]
    by_cases hlh : low ≤ high
    · rw [if_pos hlh]
      dsimp only
      rw [if_neg (by have := hbig ((low + high) / 2); omega)]
      dsimp only
      exact ih low ((low + high) / 2 - 1)
    · rw [if_neg hlh]

/-- C5: for every buffer (abstracted by the encode oracle), every byte
budget, and every write oracle, the size-targeted encoding call terminates
and invokes the underlying encode primitive at most 7 times in total before
returning its result, success or failure. -/
theorem save_jpeg_encode_calls_le_seven (enc : Nat → Except Unit (List Nat))
    (write : List Nat → Except Unit Unit) (path : String) (maxSize : Nat) :
    (save_jpeg_compressed enc write path maxSize).2.1 ≤ 7 := by
  have hcount : (compressGo enc maxSize 100 1 100 none).2 ≤ 7 :=
    compressGo_count_le enc maxSize 7 100 1 100 none (by norm_num) (by norm_num)
  cases hres : compressGo enc maxSize 100 1 100 none with
  | mk r n =>
    rw [hres] at hcount
    dsimp only at hcount
    cases r with
    | error e =>
      have hsave : save_jpeg_compressed enc write path maxSize =
          (Except.error e, n, []) := by
        rw [save_jpeg_compressed, hres]
      rw [hsave]
      exact hcount
    | ok best =>
      cases best with
      | none =>
        have hn6 : n ≤ 6 := by
          have h := compressGo_none_count enc maxSize 6 100 1 100 (by norm_num)
            (by norm_num) (by rw [hres])
          rw [hres] at h
          exact h
        cases h10 : enc 10 with
        | error e =>
          have hsave : save_jpeg_compressed enc write path maxSize =
              (Except.error ProcessError.jpegEncoding, n + 1, []) := by
            rw [save_jpeg_compressed, hres]
            dsimp only
            rw [h10]
          rw [hsave]
          dsimp only
          omega
        | ok minEnc =>
          have hsave : save_jpeg_compressed enc write path maxSize =
              (Except.error (ProcessError.compressionTargetTooSmall (maxSize / 1024)
                maxSize (minEnc.length / 1024) minEnc.length), n + 1, []) := by
            rw [save_jpeg_compressed, hres]
            dsimp only
            rw [h10]
          rw [hsave]
          dsimp only
          omega
      | some qd =>
        cases qd with
        | mk q data =>
          cases hwrite : write data with
          | error e =>
            have hsave : save_jpeg_compressed enc write path maxSize =
                (Except.error (ProcessError.fileWrite path), n, [data]) := by
              rw [save_jpeg_compressed, hres]
              dsimp only
              rw [hwrite]
            rw [hsave]
            exact hcount
          | ok u =>
            have hsave : save_jpeg_compressed enc write path maxSize =
                (Except.ok (), n, [data]) := by
              rw [save_jpeg_compressed, hres]
              dsimp only
              rw [hwrite]
            rw [hsave]
            exact hcount

/-- C2 (amended): when every quality's encoding exceeds the budget — in
particular, for a monotone encoder whose minimum-quality output is already
too large — the size-targeted call fails with TargetTooSmall carrying the
requested budget and the quality-10 encoding size. (As literally stated, with
only quality 10 oversized, the claim is false: see the counterexample, where
a non-monotone oracle lets the search succeed at quality 50.) -/
theorem save_jpeg_target_too_small (sizes : Nat → List Nat)
    (write : List Nat → Except Unit Unit) (path : String) (maxSize : Nat)
    (hbig : ∀ q, maxSize < (sizes q).length) :
    (save_jpeg_compressed (fun q => Except.ok (sizes q)) write path maxSize).1 =
      Except.error (ProcessError.compressionTargetTooSmall (maxSize / 1024) maxSize
        ((sizes 10).length / 1024) (sizes 10).length) := by
  rw [save_jpeg_compressed]
  have hloop := compressGo_all_big sizes maxSize hbig 100 1 100
  cases hres : compressGo (fun q => Except.ok (sizes q)) maxSize 100 1 100 none with
  | mk r n =>
    rw [hres] at hloop
    dsimp only at hloop
    subst hloop
    rfl

/-- Witness for the amended C2: a constant 10-byte encoder against a 5-byte
budget fails with TargetTooSmall carrying min size 10. -/
theorem save_jpeg_target_too_small_witness :
    (save_jpeg_compressed (fun _ => Except.ok (List.replicate 10 0))
        (fun _ => Except.ok ()) "out.jpg" 5).1 =
      Except.error (ProcessError.compressionTargetTooSmall 0 5 0 10) :=
  save_jpeg_target_too_small (fun _ => List.replicate 10 0)
    (fun _ => Except.ok ()) "out.jpg" 5 (fun _ => by simp)

/-- A non-monotone encode oracle: quality 50 yields 1 byte, every other
quality (including the minimum 10) yields 10 bytes. -/
def cexEnc : Nat → Except Unit (List Nat) :=
  fun q => Except.ok (if q = 50 then [0] else List.replicate 10 0)

/-- C2 is false exactly as stated: with budget 5, the quality-10 encoding of
`cexEnc` is 10 bytes (over budget), yet the size-targeted call succeeds
(the search probes quality 50, never quality 10), so it does not fail with
TargetTooSmall. -/
theorem save_jpeg_target_too_small_counterexample :
    (∃ bs, cexEnc 10 = Except.ok bs ∧ 5 < bs.length) ∧
      (save_jpeg_compressed cexEnc (fun _ => Except.ok ()) "out.jpg" 5).1 =
        Except.ok () := by
  constructor
  · exact ⟨List.replicate 10 0, rfl, by decide⟩
  · rfl

/-- C10: the size-targeted call attempts a filesystem write exactly when the
quality search found an encoding within the budget; when it fails with
TargetTooSmall or with an encoding failure, no write is attempted. -/
theorem save_jpeg_write_iff_found (enc : Nat → Except Unit (List Nat))
    (write : List Nat → Except Unit Unit) (path : String) (maxSize : Nat) :
    ((save_jpeg_compressed enc write path maxSize).2.2 ≠ [] ↔
      ∃ qd, (compressGo enc maxSize 100 1 100 none).1 = Except.ok (some qd))
    ∧ (∀ a b c d, (save_jpeg_compressed enc write path maxSize).1 =
        Except.error (ProcessError.compressionTargetTooSmall a b c d) →
        (save_jpeg_compressed enc write path maxSize).2.2 = [])
    ∧ ((save_jpeg_compressed enc write path maxSize).1 =
        Except.error ProcessError.jpegEncoding →
        (save_jpeg_compressed enc write path maxSize).2.2 = []) := by
  cases hres : compressGo enc maxSize 100 1 100 none with
  | mk r n =>
    cases r with
    | error e =>
      have hsave : save_jpeg_compressed enc write path maxSize =
          (Except.error e, n, []) := by
        rw [save_jpeg_compressed, hres]
      rw [hsave]
      refine ⟨by simp, fun a b c d _ => rfl, fun _ => rfl⟩
    | ok best =>
      cases best with
      | none =>
        cases h10 : enc 10 with
        | error e =>
          have hsave : save_jpeg_compressed enc write path maxSize =
              (Except.error ProcessError.jpegEncoding, n + 1, []) := by
            rw [save_jpeg_compressed, hres]
            dsimp only
            rw [h10]
          rw [hsave]
          refine ⟨by simp, fun a b c d _ => rfl, fun _ => rfl⟩
        | ok minEnc =>
          have hsave : save_jpeg_compressed enc write path maxSize =
              (Except.error (ProcessError.compressionTargetTooSmall (maxSize / 1024)
                maxSize (minEnc.length / 1024) minEnc.length), n + 1, []) := by
            rw [save_jpeg_compressed, hres]
            dsimp only
            rw [h10]
          rw [hsave]
          refine ⟨by simp, fun a b c d _ => rfl, fun _ => rfl⟩
      | some qd =>
        cases qd with
        | mk q data =>
          cases hwrite : write data with
          | ok u =>
            have hsave : save_jpeg_compressed enc write path maxSize =
                (Except.ok (), n, [data]) := by
              rw [save_jpeg_compressed, hres]
              dsimp only
              rw [hwrite]
            rw [hsave]
            refine ⟨by simp, ?_, ?_⟩
            · intro a b c d h
              simp at h
            · intro h
              simp at h
          | error e =>
            have hsave : save_jpeg_compressed enc write path maxSize =
                (Except.error (ProcessError.fileWrite path), n, [data]) := by
              rw [save_jpeg_compressed, hres]
              dsimp only
              rw [hwrite]
            rw [hsave]
            refine ⟨by simp, ?_, ?_⟩
            · intro a b c d h
              simp at h
            · intro h
              simp at h

/-- Witness for C10: on a run that fails with TargetTooSmall, the write
trace is empty. -/
theorem save_jpeg_write_iff_found_witness :
    (save_jpeg_compressed (fun _ => Except.ok (List.replicate 10 0))
        (fun _ => Except.ok ()) "out.jpg" 5).2.2 = [] :=
  (save_jpeg_write_iff_found (fun _ => Except.ok (List.replicate 10 0))
    (fun _ => Except.ok ()) "out.jpg" 5).2.1 0 5 0 10 (by rfl)

theorem setLoop_some_length {h w : Int} {val : Int → Int → Option Pixel}
    {dst : Int → Int → Int} {init out : List Pixel}
    (hl : setLoop h w val dst init = some out) : out.length = init.length := by
  rw [setLoop_eq_pairFold] at hl
  exact foldLoop_length_invariant _ _ (fun acc a o ho => pixStep_length ho) init out hl

theorem collectLoop_mem {α β : Type} {f : α → Option β} :
    ∀ {l : List α} {out : List β}, collectLoop l f = some out →
      ∀ b ∈ out, ∃ a ∈ l, f a = some b := by
  intro l
  induction l with
  | nil =>
    intro out h b hb
    rw [collectLoop] at h
    cases h
    cases hb
  | cons a t ih =>
    intro out h b hb
    rw [collectLoop] at h
    cases hfa : f a with
    | none => rw [hfa] at h; cases h
    | some v =>
      rw [hfa] at h
      cases ht : collectLoop t f with
      | none => rw [ht] at h; cases h
      | some rest =>
        rw [ht] at h
        cases h
        rcases List.mem_cons.mp hb with rfl | hbt
        · exact ⟨a, by simp, hfa⟩
        · obtain ⟨a2, ha2, hf2⟩ := ih ht b hbt
          exact ⟨a2, by simp [ha2], hf2⟩

theorem ratTrunc_nonneg {q : ℚ} (h : 0 ≤ q) : 0 ≤ ratTrunc q := by
  rw [ratTrunc]
  apply Int.tdiv_nonneg
  · exact Rat.num_nonneg.mpr h
  · exact Int.natCast_nonneg _

/-- The blanket-impl filters of `transforms.rs`, applied through the generic
kernel evaluator like in the source. -/
def GaussianBlur.apply (img : Image) : Option (Except TransformError Image) :=
  kernelApply GaussianBlur.kernel img

/-- Evaluator instance for `Sharpen`. -/
def Sharpen.apply (img : Image) : Option (Except TransformError Image) :=
  kernelApply Sharpen.kernel img

/-- Evaluator instance for `EdgeDetect`. -/
def EdgeDetect.apply (img : Image) : Option (Except TransformError Image) :=
  kernelApply EdgeDetect.kernel img

/-- Evaluator instance for `Emboss`. -/
def Emboss.apply (img : Image) : Option (Except TransformError Image) :=
  kernelApply Emboss.kernel img

theorem guarded_setLoop_ok {g : Prop} [Decidable g] {hh ww D1 D2 : Int}
    {val : Int → Int → Option Pixel} {dst : Int → Int → Int}
    {init : List Pixel} {out : Image}
    (happ : (if g then none else
        match setLoop hh ww val dst init with
        | none => none
        | some pixels =>
          some (Except.ok (Image.mk D1 D2 pixels) : Except TransformError Image)) =
      some (Except.ok out)) :
    ∃ pixels, setLoop hh ww val dst init = some pixels ∧
      out = Image.mk D1 D2 pixels := by
  by_cases hg : g
  · rw [if_pos hg] at happ
    cases happ
  · rw [if_neg hg] at happ
    cases hl : setLoop hh ww val dst init with
    | none => rw [hl] at happ; cases happ
    | some pixels =>
      rw [hl] at happ
      simp only [Option.some.injEq, Except.ok.injEq] at happ
      exact ⟨pixels, rfl, happ.symm⟩

theorem setLoop_replicate_valid {A B hh ww : Int} (hA : 0 ≤ A) (hB : 0 ≤ B)
    {val : Int → Int → Option Pixel} {dst : Int → Int → Int} {pixels : List Pixel}
    (hl : setLoop hh ww val dst
      (List.replicate ((A * B).toNat) (Pixel.new 0 0 0)) = some pixels) :
    (Image.mk A B pixels).Valid := by
  refine ⟨hA, hB, ?_⟩
  have hlen := setLoop_some_length hl
  rw [List.length_replicate] at hlen
  show ((pixels.length : Int)) = A * B
  rw [hlen, Int.toNat_of_nonneg (mul_nonneg hA hB)]

theorem mapped_image_valid (img : Image) (hv : img.Valid) (f : Pixel → Pixel) :
    (Image.mk img.width img.height (img.pixels.map f)).Valid := by
  refine ⟨hv.1, hv.2.1, ?_⟩
  show (((img.pixels.map f).length : Int)) = img.width * img.height
  rw [List.length_map]
  exact hv.2.2

theorem crop_ok_valid (img : Image) (hv : img.Valid) (x y w h : Int)
    (hx : 0 ≤ x) (hy : 0 ≤ y) (hw : 0 ≤ w) (hh : 0 ≤ h) (out : Image)
    (happ : Crop.apply ⟨x, y, w, h⟩ img = some (Except.ok out)) : out.Valid := by
  rw [Crop.apply] at happ
  by_cases hc : x + w > img.width ∨ y + h > img.height
  · rw [if_pos hc] at happ
    simp at happ
  · rw [if_neg hc, if_neg (by rw [not_lt]; exact mul_nonneg hw hh)] at happ
    cases hrows : collectLoop (intRange h) (fun dy =>
        collectLoop (intRange w) (fun dx =>
          readPx img.pixels ((y + dy) * img.width + (x + dx)))) with
    | none => rw [hrows] at happ; cases happ
    | some rows =>
      rw [hrows] at happ
      simp only [Option.some.injEq, Except.ok.injEq] at happ
      subst happ
      refine ⟨hw, hh, ?_⟩
      have hrowlen : ∀ r ∈ rows, r.length = w.toNat := by
        intro r hr
        obtain ⟨dy, -, hfr⟩ := collectLoop_mem hrows r hr
        rw [collectLoop_some_length hfr, intRange_length]
      have houter : rows.length = h.toNat := by
        rw [collectLoop_some_length hrows, intRange_length]
      show ((rows.flatten.length : Int)) = w * h
      rw [flatten_length_const rows w.toNat hrowlen, houter]
      push_cast
      rw [Int.toNat_of_nonneg hh, Int.toNat_of_nonneg hw]
      ring

theorem flip_ok_valid (img : Image) (hv : img.Valid) (axis : FlipAxis) (out : Image)
    (happ : Flip.apply ⟨axis⟩ img = some (Except.ok out)) : out.Valid := by
  rw [Flip.apply] at happ
  cases axis with
  | horizontal =>
    dsimp only at happ
    obtain ⟨pixels, hloop, rfl⟩ := guarded_setLoop_ok happ
    exact setLoop_replicate_valid hv.1 hv.2.1 hloop
  | vertical =>
    dsimp only at happ
    obtain ⟨pixels, hloop, rfl⟩ := guarded_setLoop_ok happ
    exact setLoop_replicate_valid hv.1 hv.2.1 hloop

theorem rotate_ok_valid (img : Image) (hv : img.Valid) (angle : RotateAngle)
    (out : Image) (happ : Rotate.apply ⟨angle⟩ img = some (Except.ok out)) :
    out.Valid := by
  rw [Rotate.apply] at happ
  cases angle with
  | deg90 =>
    dsimp only at happ
    obtain ⟨pixels, hloop, rfl⟩ := guarded_setLoop_ok happ
    exact setLoop_replicate_valid hv.2.1 hv.1 hloop
  | deg180 =>
    dsimp only at happ
    obtain ⟨pixels, hloop, rfl⟩ := guarded_setLoop_ok happ
    exact setLoop_replicate_valid hv.1 hv.2.1 hloop
  | deg270 =>
    dsimp only at happ
    obtain ⟨pixels, hloop, rfl⟩ := guarded_setLoop_ok happ
    exact setLoop_replicate_valid hv.2.1 hv.1 hloop

theorem fit_ok_valid (img : Image) (hv : img.Valid) (mw mh : Int)
    (hmw : 0 ≤ mw) (hmh : 0 ≤ mh) (out : Image)
    (happ : Fit.apply ⟨mw, mh⟩ img = some (Except.ok out)) : out.Valid := by
  obtain ⟨hW, hH, hlen⟩ := hv
  rw [Fit.apply] at happ
  dsimp only at happ
  obtain ⟨pixels, hloop, rfl⟩ := guarded_setLoop_ok happ
  have hscale0 : (0 : ℚ) ≤
      min (min ((mw : ℚ) / (img.width : ℚ)) ((mh : ℚ) / (img.height : ℚ))) 1 := by
    apply le_min
    · apply le_min
      · exact div_nonneg (by exact_mod_cast hmw) (by exact_mod_cast hW)
      · exact div_nonneg (by exact_mod_cast hmh) (by exact_mod_cast hH)
    · exact zero_le_one
  have hnw : (0 : Int) ≤ ratTrunc ((img.width : ℚ) *
      min (min ((mw : ℚ) / (img.width : ℚ)) ((mh : ℚ) / (img.height : ℚ))) 1) :=
    ratTrunc_nonneg (mul_nonneg (by exact_mod_cast hW) hscale0)
  have hnh : (0 : Int) ≤ ratTrunc ((img.height : ℚ) *
      min (min ((mw : ℚ) / (img.width : ℚ)) ((mh : ℚ) / (img.height : ℚ))) 1) :=
    ratTrunc_nonneg (mul_nonneg (by exact_mod_cast hH) hscale0)
  exact setLoop_replicate_valid hnw hnh hloop

theorem kernel_ok_valid (img : Image) (hv : img.Valid) (k : Kernel) (out : Image)
    (happ : kernelApply k img = some (Except.ok out)) : out.Valid := by
  rw [kernelApply] at happ
  obtain ⟨pixels, hloop, rfl⟩ := guarded_setLoop_ok happ
  exact setLoop_replicate_valid hv.1 hv.2.1 hloop

/-- C4 (amended): given a valid input buffer, every buffer returned by Crop
with non-negative parameters, Flip, Rotate, Fit with non-negative bounds,
every color transform, and every convolution filter satisfies
`pixels.length = width * height` with non-negative width and height. (As
stated — "for all inputs including degenerate arguments" — the claim is
false: a crop with negative width/height can return an invariant-violating
buffer; see the counterexample.) -/
theorem all_ops_preserve_invariant (img : Image) (hv : img.Valid) :
    (∀ x y w h out, 0 ≤ x → 0 ≤ y → 0 ≤ w → 0 ≤ h →
      Crop.apply ⟨x, y, w, h⟩ img = some (Except.ok out) → out.Valid)
    ∧ (∀ axis out, Flip.apply ⟨axis⟩ img = some (Except.ok out) → out.Valid)
    ∧ (∀ angle out, Rotate.apply ⟨angle⟩ img = some (Except.ok out) → out.Valid)
    ∧ (∀ mw mh out, 0 ≤ mw → 0 ≤ mh →
      Fit.apply ⟨mw, mh⟩ img = some (Except.ok out) → out.Valid)
    ∧ (∀ out, Invert.apply img = Except.ok out → out.Valid)
    ∧ (∀ out, Grayscale.apply img = Except.ok out → out.Valid)
    ∧ (∀ factor out, Brightness.apply factor img = Except.ok out → out.Valid)
    ∧ (∀ factor out, Contrast.apply factor img = Except.ok out → out.Valid)
    ∧ (∀ color intensity out, Tint.apply color intensity img = Except.ok out →
      out.Valid)
    ∧ (∀ color out, Colorize.apply color img = Except.ok out → out.Valid)
    ∧ (∀ k out, kernelApply k img = some (Except.ok out) → out.Valid) := by
  refine ⟨?_, ?_, ?_, ?_, ?_, ?_, ?_, ?_, ?_, ?_, ?_⟩
  · intro x y w h out hx hy hw hh happ
    exact crop_ok_valid img hv x y w h hx hy hw hh out happ
  · intro axis out happ
    exact flip_ok_valid img hv axis out happ
  · intro angle out happ
    exact rotate_ok_valid img hv angle out happ
  · intro mw mh out hmw hmh happ
    exact fit_ok_valid img hv mw mh hmw hmh out happ
  · intro out happ
    rw [Invert.apply] at happ
    cases happ
    exact mapped_image_valid img hv _
  · intro out happ
    rw [Grayscale.apply] at happ
    cases happ
    exact mapped_image_valid img hv _
  · intro factor out happ
    rw [Brightness.apply] at happ
    cases happ
    exact mapped_image_valid img hv _
  · intro factor out happ
    rw [Contrast.apply] at happ
    cases happ
    exact mapped_image_valid img hv _
  · intro color intensity out happ
    rw [Tint.apply] at happ
    cases happ
    exact mapped_image_valid img hv _
  · intro color out happ
    rw [Colorize.apply] at happ
    cases happ
    exact mapped_image_valid img hv _
  · intro k out happ
    exact kernel_ok_valid img hv k out happ

/-- Witness for the amended C4: the invariant conjunction holds at a concrete
valid buffer. -/
theorem all_ops_preserve_invariant_witness :
    img2x2.Valid ∧
      ∀ out, Invert.apply img2x2 = Except.ok out → out.Valid :=
  ⟨by decide, (all_ops_preserve_invariant img2x2 (by decide)).2.2.2.2.1⟩

theorem mem_intRangeIncl {a b v : Int} : v ∈ intRangeIncl a b ↔ a ≤ v ∧ v ≤ b := by
  rw [intRangeIncl, List.mem_map]
  constructor
  · rintro ⟨i, hi, rfl⟩
    rw [List.mem_range] at hi
    omega
  · rintro ⟨h1, h2⟩
    refine ⟨(v - a).toNat, ?_, by omega⟩
    rw [List.mem_range]
    omega

theorem foldLoop_total {σ α : Type} (l : List α) (f : σ → α → Option σ)
    (g : σ → α → σ) :
    (∀ acc, ∀ a ∈ l, f acc a = some (g acc a)) →
      ∀ init, foldLoop l f init = some (l.foldl g init) := by
  induction l with
  | nil =>
    intro _ init
    rfl
  | cons a t ih =>
    intro hfg init
    rw [foldLoop, hfg init a (by simp), List.foldl_cons]
    exact ih (fun acc x hx => hfg acc x (by simp [hx])) (g init a)

theorem foldl_triple_add (l : List Int) (f1 f2 f3 : Int → ℚ) :
    ∀ a b c : ℚ,
      l.foldl (fun acc dx => (acc.1 + f1 dx, acc.2.1 + f2 dx, acc.2.2 + f3 dx))
        (a, b, c) =
      (a + (l.map f1).sum, b + (l.map f2).sum, c + (l.map f3).sum) := by
  induction l with
  | nil =>
    intro a b c
    simp
  | cons x t ih =>
    intro a b c
    rw [List.foldl_cons]
    dsimp only
    rw [ih]
    simp only [List.map_cons, List.sum_cons, Prod.mk.injEq]
    refine ⟨by ring, by ring, by ring⟩

theorem sum_map_mul_left_q (l : List Int) (c : ℚ) (f : Int → ℚ) :
    (l.map (fun x => c * f x)).sum = c * (l.map f).sum := by
  induction l with
  | nil => simp
  | cons x t ih =>
    simp only [List.map_cons, List.sum_cons, ih]
    ring

theorem sum_range_getD (v : List ℚ) :
    ((List.range v.length).map (fun j => v.getD j 0)).sum = v.sum := by
  induction v with
  | nil => simp
  | cons a t ih =>
    rw [List.length_cons, List.range_succ_eq_map]
    rw [List.map_cons, List.map_map, List.sum_cons]
    have hshift : (List.range t.length).map
        ((fun j => List.getD (a :: t) j 0) ∘ (fun j => j + 1)) =
        (List.range t.length).map (fun j => t.getD j 0) := by
      apply List.map_congr_left
      intro j _
      simp [List.getD_cons_succ]
    rw [hshift, ih]
    simp [List.getD_cons_zero]

theorem sum_grid_getD : ∀ (rows cols : ℕ) (v : List ℚ), v.length = rows * cols →
    ((List.range rows).map (fun i =>
      ((List.range cols).map (fun j => v.getD (i * cols + j) 0)).sum)).sum =
      v.sum := by
  intro rows
  induction rows with
  | zero =>
    intro cols v hlen
    rw [Nat.zero_mul] at hlen
    rw [List.eq_nil_of_length_eq_zero hlen]
    simp
  | succ n ih =>
    intro cols v hlen
    have hmul : (n + 1) * cols = n * cols + cols := by ring
    have hcols_le : cols ≤ v.length := by omega
    rw [List.range_succ_eq_map, List.map_cons, List.map_map, List.sum_cons]
    have hfirst : ((List.range cols).map (fun j => v.getD (0 * cols + j) 0)).sum =
        (v.take cols).sum := by
      have htl : (v.take cols).length = cols := by
        rw [List.length_take]
        omega
      have h1 : ∀ j ∈ List.range cols, v.getD (0 * cols + j) 0 =
          (v.take cols).getD j 0 := by
        intro j hj
        rw [List.mem_range] at hj
        rw [Nat.zero_mul, Nat.zero_add, List.getD_eq_getElem?_getD,
          List.getD_eq_getElem?_getD, List.getElem?_take_of_lt hj]
      calc ((List.range cols).map (fun j => v.getD (0 * cols + j) 0)).sum
          = ((List.range (v.take cols).length).map
              (fun j => (v.take cols).getD j 0)).sum := by
            rw [htl]
            exact congrArg List.sum (List.map_congr_left h1)
        _ = (v.take cols).sum := sum_range_getD _
    have hrest : (List.range n).map ((fun i =>
        ((List.range cols).map (fun j => v.getD (i * cols + j) 0)).sum) ∘
          (fun i => i + 1)) =
        (List.range n).map (fun i =>
          ((List.range cols).map (fun j => (v.drop cols).getD (i * cols + j) 0)).sum) := by
      apply List.map_congr_left
      intro i _
      simp only [Function.comp]
      congr 1
      apply List.map_congr_left
      intro j _
      have harith : (i + 1) * cols + j = cols + (i * cols + j) := by ring
      rw [harith, List.getD_eq_getElem?_getD, List.getD_eq_getElem?_getD,
        List.getElem?_drop]
    rw [hfirst, hrest, ih cols (v.drop cols) (by rw [List.length_drop]; omega)]
    exact List.sum_take_add_sum_drop v cols

/-- On a 1×1 buffer, every window offset clamps to `(0, 0)`, so every sample
reads the single source pixel. -/
theorem window_get_1x1 (p : Pixel) (dx dy : Int) :
    KernelWindow.get ⟨1, 1, [p]⟩ 0 0 dx dy = some p := by
  rw [KernelWindow.get]
  dsimp only
  have h1 : intClamp (0 + dx) 0 (1 - 1) = some 0 := by
    rw [intClamp, if_pos (by norm_num)]
    congr 1
    omega
  have h2 : intClamp (0 + dy) 0 (1 - 1) = some 0 := by
    rw [intClamp, if_pos (by norm_num)]
    congr 1
    omega
  rw [h1, h2]
  rfl

/-- `Kernel::get` succeeds at every in-window offset of a well-formed
kernel. -/
theorem kernel_get_wf (k : Kernel) (hk : k.WF) (dx dy : Int)
    (hdx1 : -(k.size.tdiv 2) ≤ dx) (hdx2 : dx ≤ k.size.tdiv 2)
    (hdy1 : -(k.size.tdiv 2) ≤ dy) (hdy2 : dy ≤ k.size.tdiv 2) :
    k.get dx dy = some (k.values.getD
      ((k.size.tdiv 2 + dy) * k.size + (k.size.tdiv 2 + dx)).toNat 0) := by
  obtain ⟨hpos, hodd, hlen⟩ := hk
  have hc : k.size = 2 * k.size.tdiv 2 + 1 := by
    rw [Int.tdiv_eq_ediv (by omega) (by norm_num)]
    omega
  rw [Kernel.get]
  have hb := grid_index_bound (a := k.size.tdiv 2 + dy) (b := k.size.tdiv 2 + dx)
      (A := k.size) (B := k.size) (by omega) (by omega) (by omega) (by omega)
  have hltlen : ((k.size.tdiv 2 + dy) * k.size + (k.size.tdiv 2 + dx)).toNat <
      k.values.length := by
    rw [hlen]
    omega
  rw [if_pos ⟨hb.1, hltlen⟩]
  simp [List.getD_eq_getElem?_getD, List.getElem?_eq_getElem hltlen]

/-- Summing a function of the kernel offsets over the whole window equals the
sum over all flat kernel indices. -/
theorem sum_offsets_grid (c : Int) (hc0 : 0 ≤ c) (s : Int) (hs : s = 2 * c + 1)
    (v : List ℚ) (hlen : v.length = (s * s).toNat) :
    ((intRangeIncl (-c) c).map (fun dy => ((intRangeIncl (-c) c).map (fun dx =>
      v.getD ((c + dy) * s + (c + dx)).toNat 0)).sum)).sum = v.sum := by
  obtain ⟨sn, hsn⟩ : ∃ n : ℕ, s = (n : Int) := ⟨s.toNat, by omega⟩
  have hlenn : v.length = sn * sn := by
    have hq : s * s = ((sn * sn : ℕ) : Int) := by
      rw [hsn]
      push_cast
      ring
    omega
  have hLmap : intRangeIncl (-c) c =
      (List.range sn).map (fun (i : ℕ) => -c + (i : Int)) := by
    rw [intRangeIncl]
    have harg : (c + 1 - -c).toNat = sn := by omega
    rw [harg]
  rw [hLmap]
  simp only [List.map_map]
  calc ((List.range sn).map ((fun dy => ((List.range sn).map ((fun dx =>
          v.getD ((c + dy) * s + (c + dx)).toNat 0) ∘
            (fun (j : ℕ) => -c + (j : Int)))).sum) ∘
              (fun (i : ℕ) => -c + (i : Int)))).sum
      = ((List.range sn).map (fun i =>
          ((List.range sn).map (fun j => v.getD (i * sn + j) 0)).sum)).sum := by
        apply congrArg List.sum
        apply List.map_congr_left
        intro i hi
        rw [List.mem_range] at hi
        simp only [Function.comp]
        apply congrArg List.sum
        apply List.map_congr_left
        intro j hj
        rw [List.mem_range] at hj
        have e1 : c + (-c + (i : Int)) = (i : Int) := by ring
        have e2 : c + (-c + (j : Int)) = (j : Int) := by ring
        have hprod : ((i : Int) * ((sn : ℕ) : Int) + (j : Int)) =
            ((i * sn + j : ℕ) : Int) := by
          push_cast
          ring
        have hidx : ((c + (-c + (i : Int))) * s + (c + (-c + (j : Int)))).toNat =
            i * sn + j := by
          rw [e1, e2, hsn, hprod]
          omega
        simp only [Function.comp]
        rw [hidx]
    _ = v.sum := sum_grid_getD sn sn v hlenn

/-- On a 1×1 buffer, the kernel window accumulates the single pixel's
channels against every kernel weight, so the result is each channel times
the sum of all weights, through `Pixel::from_f32`. -/
theorem apply_kernel_1x1 (p : Pixel) (k : Kernel) (hk : k.WF) :
    KernelWindow.apply_kernel ⟨1, 1, [p]⟩ 0 0 k =
      some (Pixel.from_f32 ((p.r : ℚ) * k.values.sum) ((p.g : ℚ) * k.values.sum)
        ((p.b : ℚ) * k.values.sum)) := by
  obtain ⟨hpos, hodd, hlen⟩ := hk
  have hc : k.size = 2 * k.size.tdiv 2 + 1 := by
    rw [Int.tdiv_eq_ediv (by omega) (by norm_num)]
    omega
  rw [KernelWindow.apply_kernel]
  have hinner : ∀ acc : ℚ × ℚ × ℚ, ∀ dy ∈ intRangeIncl (-k.size.tdiv 2) (k.size.tdiv 2),
      foldLoop (intRangeIncl (-k.size.tdiv 2) (k.size.tdiv 2)) (fun acc2 dx =>
        match KernelWindow.get ⟨1, 1, [p]⟩ 0 0 dx dy with
        | none => none
        | some q =>
          match k.get dx dy with
          | none => none
          | some kvv =>
            some (acc2.1 + (q.r : ℚ) * kvv, acc2.2.1 + (q.g : ℚ) * kvv,
              acc2.2.2 + (q.b : ℚ) * kvv)) acc =
      some ((intRangeIncl (-k.size.tdiv 2) (k.size.tdiv 2)).foldl (fun acc2 dx =>
        (acc2.1 + (p.r : ℚ) * k.values.getD
            ((k.size.tdiv 2 + dy) * k.size + (k.size.tdiv 2 + dx)).toNat 0,
         acc2.2.1 + (p.g : ℚ) * k.values.getD
            ((k.size.tdiv 2 + dy) * k.size + (k.size.tdiv 2 + dx)).toNat 0,
         acc2.2.2 + (p.b : ℚ) * k.values.getD
            ((k.size.tdiv 2 + dy) * k.size + (k.size.tdiv 2 + dx)).toNat 0)) acc) := by
    intro acc dy hdy
    rw [mem_intRangeIncl] at hdy
    apply foldLoop_total
    intro acc2 dx hdx
    rw [mem_intRangeIncl] at hdx
    rw [window_get_1x1, kernel_get_wf k ⟨hpos, hodd, hlen⟩ dx dy
      (by omega) (by omega) (by omega) (by omega)]
  rw [foldLoop_total _ _ _ hinner ((0 : ℚ), (0 : ℚ), (0 : ℚ))]
  have houter : (fun (acc : ℚ × ℚ × ℚ) (dy : Int) =>
      (intRangeIncl (-k.size.tdiv 2) (k.size.tdiv 2)).foldl (fun acc2 dx =>
        (acc2.1 + (p.r : ℚ) * k.values.getD
            ((k.size.tdiv 2 + dy) * k.size + (k.size.tdiv 2 + dx)).toNat 0,
         acc2.2.1 + (p.g : ℚ) * k.values.getD
            ((k.size.tdiv 2 + dy) * k.size + (k.size.tdiv 2 + dx)).toNat 0,
         acc2.2.2 + (p.b : ℚ) * k.values.getD
            ((k.size.tdiv 2 + dy) * k.size + (k.size.tdiv 2 + dx)).toNat 0)) acc) =
      (fun (acc : ℚ × ℚ × ℚ) (dy : Int) =>
        (acc.1 + ((intRangeIncl (-k.size.tdiv 2) (k.size.tdiv 2)).map (fun dx =>
            (p.r : ℚ) * k.values.getD
              ((k.size.tdiv 2 + dy) * k.size + (k.size.tdiv 2 + dx)).toNat 0)).sum,
         acc.2.1 + ((intRangeIncl (-k.size.tdiv 2) (k.size.tdiv 2)).map (fun dx =>
            (p.g : ℚ) * k.values.getD
              ((k.size.tdiv 2 + dy) * k.size + (k.size.tdiv 2 + dx)).toNat 0)).sum,
         acc.2.2 + ((intRangeIncl (-k.size.tdiv 2) (k.size.tdiv 2)).map (fun dx =>
            (p.b : ℚ) * k.values.getD
              ((k.size.tdiv 2 + dy) * k.size + (k.size.tdiv 2 + dx)).toNat 0)).sum)) := by
    funext acc dy
    exact foldl_triple_add _ _ _ _ acc.1 acc.2.1 acc.2.2
  rw [houter, foldl_triple_add]
  have hsums : ∀ ch : ℚ, ((intRangeIncl (-k.size.tdiv 2) (k.size.tdiv 2)).map
      (fun dy => ((intRangeIncl (-k.size.tdiv 2) (k.size.tdiv 2)).map (fun dx =>
        ch * k.values.getD
          ((k.size.tdiv 2 + dy) * k.size + (k.size.tdiv 2 + dx)).toNat 0)).sum)).sum =
      ch * k.values.sum := by
    intro ch
    have hpull : ∀ dy : Int, ((intRangeIncl (-k.size.tdiv 2) (k.size.tdiv 2)).map
        (fun dx => ch * k.values.getD
          ((k.size.tdiv 2 + dy) * k.size + (k.size.tdiv 2 + dx)).toNat 0)).sum =
        ch * ((intRangeIncl (-k.size.tdiv 2) (k.size.tdiv 2)).map
          (fun dx => k.values.getD
            ((k.size.tdiv 2 + dy) * k.size + (k.size.tdiv 2 + dx)).toNat 0)).sum :=
      fun dy => sum_map_mul_left_q _ ch _
    rw [List.map_congr_left (fun dy _ => hpull dy), sum_map_mul_left_q]
    congr 1
    exact sum_offsets_grid (k.size.tdiv 2) (by omega) k.size hc k.values hlen
  dsimp only
  rw [hsums, hsums, hsums]
  congr 1
  ring_nf

/-- C8: for every 1×1 source buffer and every well-formed (odd-sized) kernel,
convolution returns a 1×1 buffer whose single pixel samples the one source
pixel at every kernel offset (all offsets clamp to position (0,0)): the
source channels multiplied by the sum of all kernel weights, converted by the
clamped conversion of `Pixel::from_f32`. -/
theorem kernel_on_1x1 (p : Pixel) (k : Kernel) (hk : k.WF) :
    kernelApply k ⟨1, 1, [p]⟩ = some (Except.ok ⟨1, 1,
      [Pixel.from_f32 ((p.r : ℚ) * k.values.sum) ((p.g : ℚ) * k.values.sum)
        ((p.b : ℚ) * k.values.sum)]⟩) := by
  rw [kernelApply]
  rw [if_neg (by norm_num)]
  rw [setLoop_eq_pairFold]
  have hpairs : pairs 1 1 = [((0 : Int), (0 : Int))] := rfl
  rw [hpairs, foldLoop]
  have hstep : pixStep
      (fun x y => KernelWindow.apply_kernel ⟨1, 1, [p]⟩ x y k)
      (fun x y => y * (Image.mk 1 1 [p]).width + x)
      (List.replicate ((Image.mk 1 1 [p]).width * (Image.mk 1 1 [p]).height).toNat
        (Pixel.new 0 0 0)) ((0 : Int), (0 : Int)) =
      some [Pixel.from_f32 ((p.r : ℚ) * k.values.sum) ((p.g : ℚ) * k.values.sum)
        ((p.b : ℚ) * k.values.sum)] := by
    rw [pixStep]
    dsimp only
    rw [apply_kernel_1x1 p k hk]
    rfl
  rw [hstep]
  rfl

/-- Witness for C8 at the 3×3 sharpen kernel and a concrete pixel. -/
theorem kernel_on_1x1_witness :
    Sharpen.kernel.WF ∧
      kernelApply Sharpen.kernel ⟨1, 1, [Pixel.new 10 20 30]⟩ =
        some (Except.ok ⟨1, 1,
          [Pixel.from_f32 (((Pixel.new 10 20 30).r : ℚ) * Sharpen.kernel.values.sum)
            (((Pixel.new 10 20 30).g : ℚ) * Sharpen.kernel.values.sum)
            (((Pixel.new 10 20 30).b : ℚ) * Sharpen.kernel.values.sum)]⟩) :=
  ⟨⟨by norm_num [Sharpen.kernel], by norm_num [Sharpen.kernel],
      by simp [Sharpen.kernel]⟩,
    kernel_on_1x1 (Pixel.new 10 20 30) Sharpen.kernel
      ⟨by norm_num [Sharpen.kernel], by norm_num [Sharpen.kernel],
        by simp [Sharpen.kernel]⟩⟩

/-- C6: the box-blur convolution filter (modelled from the spec: its `BoxBlur`
type is called from `main.rs` but missing from the provided sources) is a 3×3
kernel whose nine weights are all equal and normalized — each weight `1/9`,
summing to 1 — and it is applied by the same generic kernel evaluator as the
other filters. -/
theorem boxblur_kernel_spec :
    BoxBlur.kernel.size = 3 ∧
    BoxBlur.kernel.values = List.replicate 9 ((1 : ℚ) / 9) ∧
    BoxBlur.kernel.values.sum = 1 ∧
    BoxBlur.apply = kernelApply BoxBlur.kernel := by
  have hker : BoxBlur.kernel = ⟨3, List.replicate 9 ((1 : ℚ) / 9)⟩ := by
    rw [BoxBlur.kernel, Kernel.normalized]
    rw [if_pos]
    · dsimp only
      norm_num [List.replicate]
    · dsimp only
      rw [f32Epsilon]
      norm_num
  refine ⟨by rw [hker], by rw [hker], ?_, rfl⟩
  rw [hker]
  norm_num [List.replicate]

end RustPhoto
